import Mathlib

/-!
Verification of the chemical-equation balancer (`algo.py`).

The embedding mirrors `ChemicalEquationBalancer`:
* `parse_equation`   — splits the raw equation into reactant / product compound strings;
* `parse_compound`   — the recursive formula scanner `_parse_compound`, embedded as a
  fuel-indexed loop over the remaining character list (the Python `while` over an index);
* `build_matrix`     — `_build_matrix`, rows indexed by the elements in first-occurrence
  order (the source uses an unordered `set`; any deterministic order of the same set);
* `solve_matrix`     — `_solve_matrix`.  The sympy calls `Matrix.nullspace` are not part
  of the repository; they are modelled from the spec: row-reduce to RREF over ℚ,
  take the basis vector of the first free column, then the integer normalization steps
  written out in `_solve_matrix` itself (lcm of denominators, sign flip on negative
  minimum, division by the running gcd);
* `get_balanced_equation`, `balance` — the formatter and the driver;
* `Balancer`, `balanceS` — the object state (`self.elements`, `self.compounds`) made
  explicit, to reason about mutation of the instance across calls.

Strings are handled as `List Char`; element symbols use the ASCII upper/lower/digit
classes that the inputs exercise.  Exact rational arithmetic is implemented by
executable operations (`qadd`, `qmul`, …) built on `mkRat`, with lemmas equating them
to the field operations of `ℚ`.
-/

/-! ### Executable rational arithmetic -/

def qadd (a b : ℚ) : ℚ := mkRat (a.num * b.den + b.num * a.den) (a.den * b.den)

def qneg (a : ℚ) : ℚ := mkRat (-a.num) a.den

def qmul (a b : ℚ) : ℚ := mkRat (a.num * b.num) (a.den * b.den)

def qinv (a : ℚ) : ℚ :=
  if a.num < 0 then mkRat (-(a.den : ℤ)) a.num.natAbs else mkRat (a.den : ℤ) a.num.natAbs

def qdiv (a b : ℚ) : ℚ := qmul a (qinv b)

def qsub (a b : ℚ) : ℚ := qadd a (qneg b)

theorem qadd_eq (a b : ℚ) : qadd a b = a + b := by
  unfold qadd
  rw [Rat.mkRat_eq_divInt]
  conv_rhs => rw [← Rat.num_divInt_den a, ← Rat.num_divInt_den b]
  rw [Rat.divInt_add_divInt _ _ (by exact_mod_cast a.den_nz : (a.den : ℤ) ≠ 0)
    (by exact_mod_cast b.den_nz : (b.den : ℤ) ≠ 0)]
  push_cast
  ring_nf

theorem qneg_eq (a : ℚ) : qneg a = -a := by
  rw [qneg, Rat.mkRat_eq_divInt, ← Rat.neg_def]

theorem qmul_eq (a b : ℚ) : qmul a b = a * b := by
  rw [qmul, Rat.mkRat_eq_divInt]
  conv_rhs => rw [← Rat.num_divInt_den a, ← Rat.num_divInt_den b, Rat.divInt_mul_divInt']
  push_cast
  ring_nf

theorem qinv_eq (a : ℚ) : qinv a = a⁻¹ := by
  rw [Rat.inv_def', qinv]
  by_cases h : a.num < 0
  · rw [if_pos h, Rat.mkRat_eq_divInt]
    have hab : (a.num.natAbs : ℤ) = -a.num := by omega
    rw [hab, Rat.divInt_neg, neg_neg]
  · rw [if_neg h, Rat.mkRat_eq_divInt]
    have hab : (a.num.natAbs : ℤ) = a.num := by omega
    rw [hab]

theorem qdiv_eq (a b : ℚ) : qdiv a b = a / b := by
  rw [qdiv, qmul_eq, qinv_eq, div_eq_mul_inv]

theorem qsub_eq (a b : ℚ) : qsub a b = a - b := by
  rw [qsub, qadd_eq, qneg_eq, sub_eq_add_neg]

/-! ### The formula parser `_parse_compound` -/

/-- The inner bracket-matching scan: from depth `d`, split the remaining characters
into the content before the matching close, the characters after it, and whether a
matching close was found (`paren_count` reaching `0` in the source). -/
def spanParen : Nat → List Char → List Char × List Char × Bool
  | _, [] => ([], [], false)
  | d, c :: cs =>
    if c = ')' then
      if d = 1 then ([], cs, true)
      else
        let r := spanParen (d - 1) cs
        (c :: r.1, r.2.1, r.2.2)
    else if c = '(' then
      let r := spanParen (d + 1) cs
      (c :: r.1, r.2.1, r.2.2)
    else
      let r := spanParen d cs
      (c :: r.1, r.2.1, r.2.2)

/-- The digit-run scan (`while ... isdigit()` in the source). -/
def takeDigits : List Char → List Char × List Char
  | [] => ([], [])
  | c :: cs =>
    if c.isDigit then
      let r := takeDigits cs
      (c :: r.1, r.2)
    else ([], c :: cs)

/-- Value of a digit run (`int(subscript)`). -/
def digitsVal (ds : List Char) : Nat := ds.foldl (fun a c => a * 10 + (c.toNat - 48)) 0

/-- Python statement elements[element] += count with insertion-order semantics of a dict. -/
def addCount : List (String × Nat) → String → Nat → List (String × Nat)
  | [], k, v => [(k, v)]
  | (k1, v1) :: rest, k, v =>
    if k1 = k then (k1, v1 + v) :: rest else (k1, v1) :: addCount rest k v

/-- Merge a parsed subcompound, each count multiplied by the group multiplier. -/
def mergeScaled (acc : List (String × Nat)) (sub : List (String × Nat)) (count : Nat) :
    List (String × Nat) :=
  sub.foldl (fun a p => addCount a p.1 (p.2 * count)) acc

/-- The main scanning loop of `_parse_compound`, over the remaining characters.
`fuel` bounds the number of loop iterations; `length + 1` always suffices
(see `parseLoop_fuel`). -/
def parseLoop : Nat → List Char → List (String × Nat) → List (String × Nat)
  | 0, _, acc => acc
  | _ + 1, [], acc => acc
  | fuel + 1, c :: rest, acc =>
    if c = '(' then
      let sp := spanParen 1 rest
      let sub := if sp.2.2 then sp.1 else sp.1.dropLast
      let subE := parseLoop fuel sub []
      let td := takeDigits sp.2.1
      let count := if td.1 = [] then 1 else digitsVal td.1
      parseLoop fuel td.2 (mergeScaled acc subE count)
    else if c.isUpper then
      match rest with
      | c2 :: rest2 =>
        if c2.isLower then
          let td := takeDigits rest2
          parseLoop fuel td.2
            (addCount acc (String.mk [c, c2]) (if td.1 = [] then 1 else digitsVal td.1))
        else
          let td := takeDigits rest
          parseLoop fuel td.2
            (addCount acc (String.mk [c]) (if td.1 = [] then 1 else digitsVal td.1))
      | [] => parseLoop fuel [] (addCount acc (String.mk [c]) 1)
    else parseLoop fuel rest acc

/-- Model of _parse_compound: element counts of one compound string. -/
def parse_compound (l : List Char) : List (String × Nat) := parseLoop (l.length + 1) l []

/-! ### The equation splitter `parse_equation` -/

/-- Leftmost, non-overlapping replacement (`str.replace`). -/
def replaceAllF : Nat → List Char → List Char → List Char → List Char
  | 0, _, _, s => s
  | _ + 1, _, _, [] => []
  | fuel + 1, pat, rep, c :: rest =>
    if pat.isPrefixOf (c :: rest) then rep ++ replaceAllF fuel pat rep ((c :: rest).drop pat.length)
    else c :: replaceAllF fuel pat rep rest

def replaceAll (pat rep s : List Char) : List Char := replaceAllF (s.length + 1) pat rep s

/-- Leftmost, non-overlapping split (`str.split`); `cur` holds the pending chunk reversed. -/
def splitGo : Nat → List Char → List Char → List Char → List (List Char)
  | 0, _, cur, s => [cur.reverse ++ s]
  | _ + 1, _, cur, [] => [cur.reverse]
  | fuel + 1, sep, cur, c :: rest =>
    if sep.isPrefixOf (c :: rest) then cur.reverse :: splitGo fuel sep [] ((c :: rest).drop sep.length)
    else splitGo fuel sep (c :: cur) rest

def splitOnSeq (sep s : List Char) : List (List Char) := splitGo (s.length + 1) sep [] s

/-- Number of leftmost non-overlapping occurrences of `sep`. -/
def countOccF : Nat → List Char → List Char → Nat
  | 0, _, _ => 0
  | _ + 1, _, [] => 0
  | fuel + 1, sep, c :: rest =>
    if sep.isPrefixOf (c :: rest) then countOccF fuel sep ((c :: rest).drop sep.length) + 1
    else countOccF fuel sep rest

def countOcc (sep s : List Char) : Nat := countOccF (s.length + 1) sep s

/-- The normalization done at the top of `parse_equation`: strip spaces and
underscores, rewrite the textual arrow to the canonical separator. -/
def normalizeEq (l : List Char) : List Char :=
  replaceAll ("\\longrightarrow".data) ("-->".data)
    (replaceAll ("_".data) [] (replaceAll (" ".data) [] l))

/-- Model of parse_equation: here none models the raised ValueError. -/
def parse_equation (l : List Char) : Option (List (List Char) × List (List Char)) :=
  match splitOnSeq ("-->".data) (normalizeEq l) with
  | [a, b] => some (splitOnSeq ("+".data) a, splitOnSeq ("+".data) b)
  | _ => none

/-! ### The matrix builder `_build_matrix` -/

/-- Python expression elements.get(element, 0) on the parsed compound. -/
def countE (e : String) (comp : List Char) : Nat :=
  (List.lookup e (parse_compound comp)).getD 0

def insKey (acc : List String) (k : String) : List String :=
  if k ∈ acc then acc else acc ++ [k]

/-- All distinct element symbols of the equation, in first-occurrence order
(a deterministic enumeration of the source's `all_elements` set). -/
def allElements (rs ps : List (List Char)) : List String :=
  (rs ++ ps).foldl (fun acc comp => (parse_compound comp).foldl (fun a p => insKey a p.1) acc) []

/-- Model of _build_matrix: one row per element, reactant columns negated. -/
def build_matrix (rs ps : List (List Char)) : List (List ℚ) :=
  (allElements rs ps).map (fun e =>
    rs.map (fun comp => qneg (mkRat (countE e comp : ℤ) 1))
      ++ ps.map (fun comp => mkRat (countE e comp : ℤ) 1))

/-! ### The null-space solver `_solve_matrix`

The sympy `Matrix.nullspace` call is modelled from the spec: row-reduce to reduced
row-echelon form over the rationals, identify the free columns, and construct the
basis vector of the first free column (free entry `1`, pivot entries the negated
RREF column values).  The integer normalization below it is `_solve_matrix` itself. -/

def entry (r : List ℚ) (j : Nat) : ℚ := r.getD j 0

def dotq : List ℚ → List ℚ → ℚ
  | a :: as, b :: bs => qadd (qmul a b) (dotq as bs)
  | _, _ => 0

def rowSub (r p : List ℚ) (f : ℚ) : List ℚ := List.zipWith (fun a b => qsub a (qmul f b)) r p

/-- Index (counting from `k`) of the first row whose `col` entry is nonzero. -/
def findNZ (col : Nat) : Nat → List (List ℚ) → Option Nat
  | _, [] => none
  | k, r :: rs => if entry r col = 0 then findNZ col (k + 1) rs else some k

def listSwap (rows : List (List ℚ)) (i j : Nat) : List (List ℚ) :=
  (rows.set i (rows.getD j [])).set j (rows.getD i [])

/-- Subtract the multiple of the pivot row from every other row (row index counter `k`). -/
def elimRows (p1 : List ℚ) (col pr : Nat) : Nat → List (List ℚ) → List (List ℚ)
  | _, [] => []
  | k, r :: rs => (if k = pr then r else rowSub r p1 (entry r col)) :: elimRows p1 col pr (k + 1) rs

/-- Gauss–Jordan elimination to reduced row-echelon form, column by column,
returning the reduced rows and the pivot column list. -/
def rrefGo : Nat → List (List ℚ) → Nat → Nat → List Nat → List (List ℚ) × List Nat
  | 0, rows, _, _, pivots => (rows, pivots)
  | fuel + 1, rows, col, pr, pivots =>
    if rows.length ≤ pr then (rows, pivots)
    else
      match findNZ col pr (rows.drop pr) with
      | none => rrefGo fuel rows (col + 1) pr pivots
      | some r =>
        let rows1 := listSwap rows pr r
        let p := rows1.getD pr []
        let piv := entry p col
        let p1 := p.map (fun x => qdiv x piv)
        let rows2 := rows1.set pr p1
        let rows3 := elimRows p1 col pr 0 rows2
        rrefGo fuel rows3 (col + 1) (pr + 1) (pivots ++ [col])

def ncols (M : List (List ℚ)) : Nat := (M.headD []).length

def rref (M : List (List ℚ)) : List (List ℚ) × List Nat := rrefGo (ncols M) M 0 0 []

def freeCols (n : Nat) (pivots : List Nat) : List Nat :=
  (List.range n).filter (fun j => decide (j ∉ pivots))

/-- Position of column `j` in the pivot list, if any. -/
def pivIdx (pivots : List Nat) (j : Nat) : Option Nat :=
  match pivots with
  | [] => none
  | p :: rest => if p = j then some 0 else (pivIdx rest j).map (fun i => i + 1)

/-- Null-space basis vector for free column `j0` read off the RREF: a `1` in the free
entry, `0` in the other free entries, the negated RREF column values in the pivot
entries. -/
def nsVec (R : List (List ℚ)) (pivots : List Nat) (n j0 : Nat) : List ℚ :=
  (List.range n).map (fun j =>
    if j = j0 then 1
    else
      match pivIdx pivots j with
      | some i => qneg (entry (R.getD i []) j0)
      | none => 0)

/-- Python math.gcd (non-negative result, arguments may be negative). -/
def pgcd (a b : ℤ) : ℤ := (Int.gcd a b : ℤ)

/-- Python min(coeffs); the list is never empty where this is used. -/
def minList (l : List ℤ) : ℤ :=
  match l with
  | [] => 0
  | c :: cs => cs.foldl min c

/-- LCM of the denominators of the rational basis vector. -/
def lcmDen (v : List ℚ) : ℕ := v.foldl (fun a x => Nat.lcm a x.den) 1

/-- Python int(x * lcm_denom) applied entrywise (the products are integers). -/
def intScaled (v : List ℚ) : List ℤ := v.map (fun x => (qmul x (mkRat (lcmDen v : ℤ) 1)).num)

/-- Negate the whole vector when its minimum is negative. -/
def signNorm (l : List ℤ) : List ℤ := if minList l < 0 then l.map (fun c => -c) else l

/-- The running gcd `g = coeffs[0]; g = gcd(g, c) for c in coeffs[1:]`. -/
def pygcd (l : List ℤ) : ℤ := l.tail.foldl pgcd (l.headD 0)

/-- The integer normalization at the tail of `_solve_matrix`. -/
def normalizeCoeffs (v : List ℚ) : List ℤ :=
  (signNorm (intScaled v)).map (fun c => Int.fdiv c (pygcd (signNorm (intScaled v))))

/-- Model of _solve_matrix: here none models the raised exception when the null space is empty. -/
def solve_matrix (M : List (List ℚ)) : Option (List ℤ) :=
  match freeCols (ncols M) (rref M).2 with
  | [] => none
  | j0 :: _ => some (normalizeCoeffs (nsVec (rref M).1 (rref M).2 (ncols M) j0))

/-! ### The formatter and the driver -/

def digitChar (n : Nat) : Char := Char.ofNat (48 + n)

def natStrGo : Nat → Nat → List Char
  | 0, n => [digitChar (n % 10)]
  | fuel + 1, n => if n < 10 then [digitChar n] else natStrGo fuel (n / 10) ++ [digitChar (n % 10)]

def natStr (n : Nat) : List Char := natStrGo n n

/-- Decimal rendering of an integer (`f"{coef}"`). -/
def intStr (c : ℤ) : List Char := if c < 0 then '-' :: natStr c.natAbs else natStr c.natAbs

/-- Coefficient 1 elided, otherwise prefixed to the compound. -/
def formatSide (comps : List (List Char)) (ks : List ℤ) : List (List Char) :=
  List.zipWith (fun comp k => if k = 1 then comp else intStr k ++ comp) comps ks

/-- Model of get_balanced_equation: same-side compounds joined with " + ", sides joined
with the TeX arrow. -/
def get_balanced_equation (coefficients : List ℤ) (reactants products : List (List Char)) :
    List Char :=
  List.intercalate (" + ".data) (formatSide reactants (coefficients.take reactants.length))
    ++ ("\\to".data)
    ++ List.intercalate (" + ".data) (formatSide products (coefficients.drop reactants.length))

/-- The coefficient vector computed by `balance` (split, build, solve). -/
def balanceCoeffs (l : List Char) : Option (List ℤ) :=
  match parse_equation l with
  | none => none
  | some (rs, ps) => solve_matrix (build_matrix rs ps)

/-- Model of balance: the full pipeline; none models any raised error. -/
def balance (eq : String) : Option String :=
  match parse_equation eq.data with
  | none => none
  | some (rs, ps) =>
    match solve_matrix (build_matrix rs ps) with
    | none => none
    | some cs => some (String.mk (get_balanced_equation cs rs ps))

/-! ### The balancer object state -/

/-- The fields of a `ChemicalEquationBalancer` instance. -/
structure Balancer where
  elements : List (String × Nat)
  compounds : List (List Char)
deriving DecidableEq

/-- Model of the constructor. -/
def Balancer.init : Balancer := ⟨[], []⟩

/-- Model of parse_equation as a method: it assigns self.compounds = reactants + products. -/
def parse_equationS (b : Balancer) (l : List Char) :
    Option (Balancer × (List (List Char) × List (List Char))) :=
  match parse_equation l with
  | none => none
  | some (rs, ps) => some ({ b with compounds := rs ++ ps }, (rs, ps))

/-- Model of balance as a method, returning the updated instance state alongside the result. -/
def balanceS (b : Balancer) (eq : String) : Option (Balancer × String) :=
  match parse_equationS b eq.data with
  | none => none
  | some (b2, rsps) =>
    match solve_matrix (build_matrix rsps.1 rsps.2) with
    | none => none
    | some cs => some (b2, String.mk (get_balanced_equation cs rsps.1 rsps.2))

/-! ### Parser: termination (fuel stability) -/

theorem spanParen_content_length (d : Nat) (l : List Char) :
    (spanParen d l).1.length ≤ l.length := by
  induction l generalizing d with
  | nil => simp [spanParen]
  | cons c cs ih =>
    simp only [spanParen]
    by_cases h1 : c = ')'
    · rw [if_pos h1]
      by_cases h2 : d = 1
      · simp [h2]
      · rw [if_neg h2]
        simpa using Nat.succ_le_succ (ih (d - 1))
    · rw [if_neg h1]
      by_cases h3 : c = '('
      · rw [if_pos h3]
        simpa using Nat.succ_le_succ (ih (d + 1))
      · rw [if_neg h3]
        simpa using Nat.succ_le_succ (ih d)

theorem spanParen_after_length (d : Nat) (l : List Char) :
    (spanParen d l).2.1.length ≤ l.length := by
  induction l generalizing d with
  | nil => simp [spanParen]
  | cons c cs ih =>
    simp only [spanParen]
    by_cases h1 : c = ')'
    · rw [if_pos h1]
      by_cases h2 : d = 1
      · simp [h2]
      · rw [if_neg h2]
        exact le_trans (ih (d - 1)) (Nat.le_succ _)
    · rw [if_neg h1]
      by_cases h3 : c = '('
      · rw [if_pos h3]
        exact le_trans (ih (d + 1)) (Nat.le_succ _)
      · rw [if_neg h3]
        exact le_trans (ih d) (Nat.le_succ _)

theorem takeDigits_snd_length (l : List Char) : (takeDigits l).2.length ≤ l.length := by
  induction l with
  | nil => simp [takeDigits]
  | cons c cs ih =>
    simp only [takeDigits]
    by_cases h : c.isDigit
    · rw [if_pos h]
      exact le_trans ih (Nat.le_succ _)
    · rw [if_neg h]

theorem parseLoop_nil (f : Nat) (acc : List (String × Nat)) : parseLoop f [] acc = acc := by
  cases f <;> rfl

/-- The loop result does not depend on the fuel once the fuel exceeds the number of
remaining characters: every iteration advances the scan, and every recursive call is
on a strictly shorter substring. -/
theorem parseLoop_fuel :
    ∀ (N : Nat) (l : List Char), l.length ≤ N → ∀ (f1 f2 : Nat) (acc : List (String × Nat)),
      l.length < f1 → l.length < f2 → parseLoop f1 l acc = parseLoop f2 l acc := by
  intro N
  induction N with
  | zero =>
    intro l hl f1 f2 acc _ _
    have : l = [] := List.length_eq_zero.mp (Nat.le_zero.mp hl)
    subst this
    rw [parseLoop_nil, parseLoop_nil]
  | succ N ih =>
    intro l hl f1 f2 acc h1 h2
    cases l with
    | nil => rw [parseLoop_nil, parseLoop_nil]
    | cons c rest =>
      obtain ⟨a, rfl⟩ : ∃ a, f1 = a + 1 := ⟨f1 - 1, by omega⟩
      obtain ⟨b, rfl⟩ : ∃ b, f2 = b + 1 := ⟨f2 - 1, by omega⟩
      have hrest : rest.length ≤ N := by
        have := hl
        simp only [List.length_cons] at this
        omega
      have hrl : rest.length < a ∧ rest.length < b := by
        simp only [List.length_cons] at h1 h2
        omega
      simp only [parseLoop]
      by_cases hpar : c = '('
      · rw [if_pos hpar, if_pos hpar]
        have hsub : (if (spanParen 1 rest).2.2 then (spanParen 1 rest).1
            else (spanParen 1 rest).1.dropLast).length ≤ rest.length := by
          split
          · exact spanParen_content_length 1 rest
          · exact le_trans (List.length_dropLast _ ▸ Nat.sub_le _ _)
              (spanParen_content_length 1 rest)
        have hrest2 : (takeDigits (spanParen 1 rest).2.1).2.length ≤ rest.length :=
          le_trans (takeDigits_snd_length _) (spanParen_after_length 1 rest)
        have hsubE : parseLoop a (if (spanParen 1 rest).2.2 then (spanParen 1 rest).1
              else (spanParen 1 rest).1.dropLast) []
            = parseLoop b (if (spanParen 1 rest).2.2 then (spanParen 1 rest).1
              else (spanParen 1 rest).1.dropLast) [] :=
          ih _ (le_trans hsub hrest) a b [] (by omega) (by omega)
        rw [hsubE]
        exact ih _ (le_trans hrest2 hrest) a b _ (by omega) (by omega)
      · rw [if_neg hpar, if_neg hpar]
        by_cases hup : c.isUpper
        · rw [if_pos hup, if_pos hup]
          cases rest with
          | nil => rw [parseLoop_nil, parseLoop_nil]
          | cons c2 rest2 =>
            dsimp only
            by_cases hlo : c2.isLower
            · rw [if_pos hlo, if_pos hlo]
              have hr2 : (takeDigits rest2).2.length ≤ rest2.length := takeDigits_snd_length _
              have : rest2.length ≤ N := by
                simp only [List.length_cons] at hrest ⊢
                omega
              exact ih _ (le_trans hr2 this) a b _
                (by simp only [List.length_cons] at hrl; omega)
                (by simp only [List.length_cons] at hrl; omega)
            · rw [if_neg hlo, if_neg hlo]
              have hr2 : (takeDigits (c2 :: rest2)).2.length ≤ (c2 :: rest2).length :=
                takeDigits_snd_length _
              exact ih _ (le_trans hr2 hrest) a b _ (by omega) (by omega)
        · rw [if_neg hup, if_neg hup]
          exact ih _ hrest a b acc (by omega) (by omega)

/-- C10: The formula parser is total: for every finite input string — including
strings with an unmatched opening parenthesis, stray characters, or no recognizable
element symbols — the scanning loop of `_parse_compound` terminates within a number
of iterations linear in the input length and returns a mapping: any fuel exceeding
the input length yields the value of `parse_compound`. -/
theorem parse_compound_total (l : List Char) (f : Nat) (h : l.length < f) :
    parseLoop f l [] = parse_compound l :=
  parseLoop_fuel l.length l le_rfl f (l.length + 1) [] h (Nat.lt_succ_self _)

/-- Witness for C10 at a concrete pathological input (unmatched opening groups and a
stray character). -/
theorem parse_compound_total_witness :
    parseLoop 42 ("((H2*".data) [] = parse_compound ("((H2*".data) :=
  parse_compound_total ("((H2*".data) 42 (by decide)

/-! ### Parser: group multipliers (C6) -/

/-- Balanced-parenthesis check relative to a starting depth: every close has a
matching open and the depth returns to zero. -/
def pdOk : Nat → List Char → Bool
  | d, [] => d == 0
  | d, c :: cs =>
    if c = '(' then pdOk (d + 1) cs
    else if c = ')' then decide (0 < d) && pdOk (d - 1) cs
    else pdOk d cs

theorem spanParen_balanced :
    ∀ (g : List Char) (d : Nat), pdOk d g = true →
      ∀ ds, spanParen (d + 1) (g ++ ')' :: ds) = (g, ds, true) := by
  intro g
  induction g with
  | nil =>
    intro d hd ds
    have hd0 : d = 0 := by simpa [pdOk] using hd
    subst hd0
    simp [spanParen]
  | cons c cs ih =>
    intro d hd ds
    by_cases h1 : c = '('
    · subst h1
      have hd' : pdOk (d + 1) cs = true := by
        rw [pdOk, if_pos rfl] at hd
        exact hd
      have hih := ih (d + 1) hd' ds
      rw [List.cons_append, spanParen, if_neg (by decide : ¬ ('(' = ')')), if_pos rfl]
      dsimp only
      rw [hih]
    · by_cases h2 : c = ')'
      · subst h2
        rw [pdOk, if_neg (by decide : ¬ (')' = '(')), if_pos rfl] at hd
        rw [Bool.and_eq_true, decide_eq_true_eq] at hd
        obtain ⟨hdpos, hrest⟩ := hd
        rw [List.cons_append, spanParen, if_pos rfl, if_neg (by omega : ¬ d + 1 = 1)]
        have hih := ih (d - 1) hrest ds
        rw [show d - 1 + 1 = d + 1 - 1 from by omega] at hih
        dsimp only
        rw [hih]
      · rw [pdOk, if_neg h1, if_neg h2] at hd
        rw [List.cons_append, spanParen, if_neg h2, if_neg h1]
        have hih := ih d hd ds
        dsimp only
        rw [hih]

theorem takeDigits_all : ∀ ds : List Char, (∀ c ∈ ds, c.isDigit = true) → takeDigits ds = (ds, []) := by
  intro ds h
  induction ds with
  | nil => rfl
  | cons c cs ih =>
    simp only [takeDigits, if_pos (h c (by simp))]
    rw [ih (fun x hx => h x (by simp [hx]))]

def keysOf (l : List (String × Nat)) : List String := l.map Prod.fst

theorem mem_keys_addCount :
    ∀ (acc : List (String × Nat)) (k : String) (v : Nat) (x : String),
      x ∈ keysOf (addCount acc k v) ↔ x ∈ keysOf acc ∨ x = k := by
  intro acc k v x
  induction acc with
  | nil => simp [addCount, keysOf]
  | cons p rest ih =>
    obtain ⟨k1, v1⟩ := p
    by_cases h : k1 = k
    · subst h
      simp [addCount, keysOf]
      tauto
    · simp only [addCount, if_neg h, keysOf, List.map_cons, List.mem_cons]
      rw [show (List.map Prod.fst (addCount rest k v)) = keysOf (addCount rest k v) from rfl] at *
      rw [ih]
      tauto

theorem addCount_keys_nodup :
    ∀ (acc : List (String × Nat)) (k : String) (v : Nat),
      (keysOf acc).Nodup → (keysOf (addCount acc k v)).Nodup := by
  intro acc k v h
  induction acc with
  | nil => simp [addCount, keysOf]
  | cons p rest ih =>
    obtain ⟨k1, v1⟩ := p
    simp only [keysOf, List.map_cons, List.nodup_cons] at h
    by_cases hk : k1 = k
    · subst hk
      simpa [addCount, keysOf, List.nodup_cons] using h
    · simp only [addCount, if_neg hk, keysOf, List.map_cons, List.nodup_cons]
      refine ⟨?_, ih h.2⟩
      intro hmem
      rw [show (List.map Prod.fst (addCount rest k v)) = keysOf (addCount rest k v) from rfl,
        mem_keys_addCount] at hmem
      rcases hmem with h1 | h1
      · exact h.1 h1
      · exact hk h1

theorem mergeScaled_keys_nodup :
    ∀ (sub acc : List (String × Nat)) (n : Nat),
      (keysOf acc).Nodup → (keysOf (mergeScaled acc sub n)).Nodup := by
  intro sub
  induction sub with
  | nil => intro acc n h; exact h
  | cons p rest ih =>
    intro acc n h
    simp only [mergeScaled, List.foldl_cons]
    exact ih _ n (addCount_keys_nodup _ _ _ h)

theorem parseLoop_keys_nodup :
    ∀ (fuel : Nat) (l : List Char) (acc : List (String × Nat)),
      (keysOf acc).Nodup → (keysOf (parseLoop fuel l acc)).Nodup := by
  intro fuel
  induction fuel with
  | zero => intro l acc h; exact h
  | succ fuel ih =>
    intro l acc h
    cases l with
    | nil => exact h
    | cons c rest =>
      simp only [parseLoop]
      by_cases hpar : c = '('
      · rw [if_pos hpar]
        exact ih _ _ (mergeScaled_keys_nodup _ _ _ h)
      · rw [if_neg hpar]
        by_cases hup : c.isUpper
        · rw [if_pos hup]
          cases rest with
          | nil => exact ih _ _ (addCount_keys_nodup _ _ _ h)
          | cons c2 rest2 =>
            dsimp only
            by_cases hlo : c2.isLower
            · rw [if_pos hlo]
              exact ih _ _ (addCount_keys_nodup _ _ _ h)
            · rw [if_neg hlo]
              exact ih _ _ (addCount_keys_nodup _ _ _ h)
        · rw [if_neg hup]
          exact ih _ _ h

theorem mergeScaled_cons_fresh :
    ∀ (sub : List (String × Nat)) (acc : List (String × Nat)) (k : String) (w n : Nat),
      (∀ p ∈ sub, p.1 ≠ k) →
      mergeScaled ((k, w) :: acc) sub n = (k, w) :: mergeScaled acc sub n := by
  intro sub
  induction sub with
  | nil => intro acc k w n _; rfl
  | cons p rest ih =>
    intro acc k w n hf
    obtain ⟨k1, v1⟩ := p
    have hk1 : ¬ (k = k1) := fun h => (hf (k1, v1) (by simp)) (by simp [h.symm])
    simp only [mergeScaled, List.foldl_cons, addCount, if_neg hk1]
    exact ih _ k w n (fun p hp => hf p (by simp [hp]))

theorem mergeScaled_nil_eq_map :
    ∀ (sub : List (String × Nat)) (n : Nat), (keysOf sub).Nodup →
      mergeScaled [] sub n = sub.map (fun p => (p.1, p.2 * n)) := by
  intro sub
  induction sub with
  | nil => intro n _; rfl
  | cons p rest ih =>
    intro n h
    obtain ⟨k, v⟩ := p
    simp only [keysOf, List.map_cons, List.nodup_cons] at h
    have hf : ∀ q ∈ rest, q.1 ≠ k := by
      intro q hq hqk
      exact h.1 (by rw [← hqk]; exact List.mem_map_of_mem Prod.fst hq)
    simp only [mergeScaled, List.foldl_cons, addCount, List.map_cons]
    rw [show ((rest.foldl (fun a p => addCount a p.1 (p.2 * n)) [(k, v * n)]) : List (String × Nat))
      = mergeScaled [(k, v * n)] rest n from rfl]
    rw [show ([(k, v * n)] : List (String × Nat)) = (k, v * n) :: [] from rfl]
    rw [mergeScaled_cons_fresh rest [] k (v * n) n hf]
    rw [ih n h.2]

theorem lookup_map_scale :
    ∀ (sub : List (String × Nat)) (e : String) (n : Nat),
      List.lookup e (sub.map (fun p => (p.1, p.2 * n))) =
        (List.lookup e sub).map (fun v => v * n) := by
  intro sub e n
  induction sub with
  | nil => rfl
  | cons p rest ih =>
    obtain ⟨k, v⟩ := p
    by_cases h : e == k
    · simp [List.lookup, h]
    · simp only [List.map_cons, List.lookup]
      rw [show ((e == k) = false) from by simpa using h]
      simpa using ih

/-- C6: Parsing `"(AB2)3"` yields `{A: 3, B: 6}`; in general, a digit run following a
closing-group token multiplies every count of the recursively parsed group, and the
scaled result is merged additively into the enclosing counts. -/
theorem parse_compound_group_multiplier :
    parse_compound ("(AB2)3".data) = [("A", 3), ("B", 6)] ∧
    ∀ (g ds : List Char), pdOk 0 g = true → (∀ c ∈ ds, c.isDigit = true) →
      ∀ e : String, List.lookup e (parse_compound ('(' :: (g ++ ')' :: ds))) =
        (List.lookup e (parse_compound g)).map
          (fun v => v * (if ds = [] then 1 else digitsVal ds)) := by
  constructor
  · decide
  · intro g ds hg hds e
    have hs : spanParen 1 (g ++ ')' :: ds) = (g, ds, true) := by
      have h := spanParen_balanced g 0 hg ds
      simpa using h
    have htd : takeDigits ds = (ds, []) := takeDigits_all ds hds
    rw [parse_compound]
    rw [show ('(' :: (g ++ ')' :: ds)).length = g.length + ds.length + 2 from by
      simp only [List.length_cons, List.length_append]
      omega]
    simp only [parseLoop, if_pos rfl, hs, htd, if_true]
    rw [parse_compound_total g (g.length + ds.length + 2) (by omega)]
    have hnd : (keysOf (parse_compound g)).Nodup := by
      rw [parse_compound]
      exact parseLoop_keys_nodup _ _ [] (by simp [keysOf])
    rw [mergeScaled_nil_eq_map _ _ hnd]
    exact lookup_map_scale _ e _

/-- Witness for C6's general statement at `g = "AB2"`, `ds = "3"`, element `"B"`. -/
theorem parse_compound_group_multiplier_witness :
    pdOk 0 ("AB2".data) = true ∧
    List.lookup ("B") (parse_compound ('(' :: (("AB2".data) ++ ')' :: ("3".data)))) =
      (List.lookup ("B") (parse_compound ("AB2".data))).map
        (fun v => v * (if ("3".data : List Char) = [] then 1 else digitsVal ("3".data))) :=
  ⟨by decide,
    parse_compound_group_multiplier.2 ("AB2".data) ("3".data) (by decide) (by decide) "B"⟩

/-! ### Parser: positivity of stored counts (C7) -/

theorem uint32_le_toNat {a b : UInt32} : (a ≤ b) ↔ a.toNat ≤ b.toNat := by
  rw [UInt32.le_def, BitVec.le_def]
  exact Iff.rfl

theorem isUpper_not_digit (c : Char) (h : c.isUpper = true) : c.isDigit = false := by
  simp only [Char.isUpper, Bool.and_eq_true, decide_eq_true_eq, ge_iff_le] at h
  have h1 : (65 : UInt32).toNat ≤ c.val.toNat := uint32_le_toNat.mp h.1
  rw [show (65 : UInt32).toNat = 65 from rfl] at h1
  simp only [Char.isDigit, Bool.and_eq_false_iff, decide_eq_false_iff_not]
  right
  intro hle
  have h2 : c.val.toNat ≤ (57 : UInt32).toNat := uint32_le_toNat.mp hle
  rw [show (57 : UInt32).toNat = 57 from rfl] at h2
  omega

theorem isLower_not_digit (c : Char) (h : c.isLower = true) : c.isDigit = false := by
  simp only [Char.isLower, Bool.and_eq_true, decide_eq_true_eq, ge_iff_le] at h
  have h1 : (97 : UInt32).toNat ≤ c.val.toNat := uint32_le_toNat.mp h.1
  rw [show (97 : UInt32).toNat = 97 from rfl] at h1
  simp only [Char.isDigit, Bool.and_eq_false_iff, decide_eq_false_iff_not]
  right
  intro hle
  have h2 : c.val.toNat ≤ (57 : UInt32).toNat := uint32_le_toNat.mp hle
  rw [show (57 : UInt32).toNat = 57 from rfl] at h2
  omega

theorem digit_ne_zero_toNat (c : Char) (h : c.isDigit = true) (h0 : c ≠ '0') :
    49 ≤ c.toNat := by
  simp only [Char.isDigit, Bool.and_eq_true, decide_eq_true_eq, ge_iff_le] at h
  have h1 : (48 : UInt32).toNat ≤ c.val.toNat := uint32_le_toNat.mp h.1
  rw [show (48 : UInt32).toNat = 48 from rfl] at h1
  have hne : c.val.toNat ≠ 48 := by
    intro hc
    apply h0
    apply Char.ext
    apply UInt32.ext
    rw [hc]
    rfl
  show 49 ≤ c.val.toNat
  omega

/-- No digit run starts with the digit 0: a zero digit may occur only right after
another digit.  `b` records whether the previous character was a digit. -/
def noLeadZeroGo : Bool → List Char → Bool
  | _, [] => true
  | b, c :: cs => if c = '0' ∧ b = false then false else noLeadZeroGo c.isDigit cs

def noLeadZero (l : List Char) : Bool := noLeadZeroGo false l

theorem noLeadZeroGo_cons {b : Bool} {c : Char} {cs : List Char}
    (h : noLeadZeroGo b (c :: cs) = true) :
    ¬ (c = '0' ∧ b = false) ∧ noLeadZeroGo c.isDigit cs = true := by
  by_cases hc : c = '0' ∧ b = false
  · rw [noLeadZeroGo, if_pos hc] at h
    exact absurd h (by simp)
  · rw [noLeadZeroGo, if_neg hc] at h
    exact ⟨hc, h⟩

theorem spanParen_nlz :
    ∀ (l : List Char) (d : Nat) (b : Bool), noLeadZeroGo b l = true →
      noLeadZeroGo b (spanParen d l).1 = true ∧
        noLeadZeroGo false (spanParen d l).2.1 = true := by
  intro l
  induction l with
  | nil => intro d b _; exact ⟨rfl, rfl⟩
  | cons c cs ih =>
    intro d b h
    obtain ⟨hc, hrest⟩ := noLeadZeroGo_cons h
    by_cases h1 : c = ')'
    · by_cases h2 : d = 1
      · subst h2
        rw [spanParen, if_pos h1, if_pos rfl]
        refine ⟨rfl, ?_⟩
        rw [show Char.isDigit c = false from h1 ▸ (by decide)] at hrest
        exact hrest
      · rw [spanParen, if_pos h1, if_neg h2]
        dsimp only
        obtain ⟨ha, hb⟩ := ih (d - 1) c.isDigit hrest
        refine ⟨?_, hb⟩
        rw [noLeadZeroGo, if_neg hc]
        exact ha
    · have key : ∀ d2 : Nat,
          noLeadZeroGo b (c :: (spanParen d2 cs).1) = true ∧
            noLeadZeroGo false (spanParen d2 cs).2.1 = true := by
        intro d2
        obtain ⟨ha, hb⟩ := ih d2 c.isDigit hrest
        refine ⟨?_, hb⟩
        rw [noLeadZeroGo, if_neg hc]
        exact ha
      by_cases h3 : c = '('
      · rw [spanParen, if_neg h1, if_pos h3]
        exact key (d + 1)
      · rw [spanParen, if_neg h1, if_neg h3]
        exact key d

theorem noLeadZeroGo_dropLast :
    ∀ (l : List Char) (b : Bool), noLeadZeroGo b l = true → noLeadZeroGo b l.dropLast = true := by
  intro l
  induction l with
  | nil => intro b h; exact h
  | cons c cs ih =>
    intro b h
    cases cs with
    | nil => rfl
    | cons c2 cs2 =>
      obtain ⟨hc, hrest⟩ := noLeadZeroGo_cons h
      rw [List.dropLast_cons₂, noLeadZeroGo, if_neg hc]
      exact ih c.isDigit hrest

theorem takeDigits_fst_digits :
    ∀ l : List Char, ∀ c ∈ (takeDigits l).1, c.isDigit = true := by
  intro l
  induction l with
  | nil => intro c hc; simp [takeDigits] at hc
  | cons c0 cs ih =>
    intro c hc
    by_cases h : c0.isDigit
    · rw [takeDigits, if_pos h] at hc
      rcases List.mem_cons.mp hc with h1 | h1
      · rw [h1]; exact h
      · exact ih c h1
    · rw [takeDigits, if_neg h] at hc
      simp at hc

theorem takeDigits_fst_head :
    ∀ l : List Char, (takeDigits l).1 ≠ [] → (takeDigits l).1.head? = l.head? := by
  intro l h
  cases l with
  | nil => rfl
  | cons c cs =>
    by_cases hc : c.isDigit
    · rw [takeDigits, if_pos hc]
      rfl
    · rw [takeDigits, if_neg hc] at h ⊢
      exact absurd rfl h

theorem takeDigits_nlz :
    ∀ (l : List Char) (b : Bool), noLeadZeroGo b l = true →
      ∃ b2, noLeadZeroGo b2 (takeDigits l).2 = true := by
  intro l
  induction l with
  | nil => intro b _; exact ⟨false, rfl⟩
  | cons c cs ih =>
    intro b h
    obtain ⟨hc, hrest⟩ := noLeadZeroGo_cons h
    by_cases hd : c.isDigit
    · rw [takeDigits, if_pos hd]
      exact ih c.isDigit hrest
    · rw [takeDigits, if_neg hd]
      exact ⟨b, h⟩

theorem foldl_digits_ge_one :
    ∀ (rest : List Char) (a : Nat), 1 ≤ a →
      1 ≤ rest.foldl (fun a c => a * 10 + (c.toNat - 48)) a := by
  intro rest
  induction rest with
  | nil => intro a ha; exact ha
  | cons c cs ih =>
    intro a ha
    rw [List.foldl_cons]
    exact ih _ (by omega)

theorem digitsVal_pos (ds : List Char) (hne : ds ≠ []) (hh : ds.head? ≠ some '0')
    (hd : ∀ c ∈ ds, c.isDigit = true) : 1 ≤ digitsVal ds := by
  cases ds with
  | nil => exact absurd rfl hne
  | cons d0 rest =>
    have hd0 : d0 ≠ '0' := by
      intro h
      exact hh (by rw [h]; rfl)
    have h49 : 49 ≤ d0.toNat := digit_ne_zero_toNat d0 (hd d0 (by simp)) hd0
    rw [digitsVal, List.foldl_cons]
    exact foldl_digits_ge_one rest _ (by omega)

/-- Multiplier read at a position whose previous character is not a digit. -/
theorem count_pos_of_nlz (l : List Char) (h : noLeadZeroGo false l = true) :
    1 ≤ (if (takeDigits l).1 = [] then 1 else digitsVal (takeDigits l).1) := by
  by_cases he : (takeDigits l).1 = []
  · rw [if_pos he]
  · rw [if_neg he]
    refine digitsVal_pos _ he ?_ (takeDigits_fst_digits l)
    rw [takeDigits_fst_head l he]
    intro hcon
    cases l with
    | nil => simp at hcon
    | cons c cs =>
      have : c = '0' := by simpa using hcon
      subst this
      obtain ⟨hc, _⟩ := noLeadZeroGo_cons h
      exact hc ⟨rfl, rfl⟩

theorem addCount_pos {acc : List (String × Nat)} {k : String} {v : Nat}
    (hacc : ∀ p ∈ acc, 1 ≤ p.2) (hv : 1 ≤ v) : ∀ p ∈ addCount acc k v, 1 ≤ p.2 := by
  induction acc with
  | nil =>
    intro p hp
    rw [addCount] at hp
    rcases List.mem_singleton.mp hp with rfl
    exact hv
  | cons q rest ih =>
    intro p hp
    obtain ⟨k1, v1⟩ := q
    by_cases h : k1 = k
    · rw [addCount, if_pos h] at hp
      rcases List.mem_cons.mp hp with h1 | h1
      · rw [h1]
        simp only
        omega
      · exact hacc p (by simp [h1])
    · rw [addCount, if_neg h] at hp
      rcases List.mem_cons.mp hp with h1 | h1
      · rw [h1]
        exact hacc (k1, v1) (by simp)
      · exact ih (fun q hq => hacc q (by simp [hq])) p h1

theorem mergeScaled_pos {sub acc : List (String × Nat)} {n : Nat}
    (hacc : ∀ p ∈ acc, 1 ≤ p.2) (hsub : ∀ p ∈ sub, 1 ≤ p.2) (hn : 1 ≤ n) :
    ∀ p ∈ mergeScaled acc sub n, 1 ≤ p.2 := by
  induction sub generalizing acc with
  | nil => exact hacc
  | cons q rest ih =>
    rw [mergeScaled, List.foldl_cons]
    exact ih
      (addCount_pos hacc (Nat.one_le_iff_ne_zero.mpr
        (Nat.mul_ne_zero (Nat.one_le_iff_ne_zero.mp (hsub q (by simp)))
          (Nat.one_le_iff_ne_zero.mp hn))))
      (fun p hp => hsub p (by simp [hp]))

theorem parseLoop_values_pos :
    ∀ (fuel : Nat) (l : List Char) (b : Bool) (acc : List (String × Nat)),
      noLeadZeroGo b l = true → (∀ p ∈ acc, 1 ≤ p.2) →
      ∀ p ∈ parseLoop fuel l acc, 1 ≤ p.2 := by
  intro fuel
  induction fuel with
  | zero => intro l b acc _ hacc; exact hacc
  | succ fuel ih =>
    intro l b acc h hacc
    cases l with
    | nil => exact hacc
    | cons c rest =>
      obtain ⟨hc0, hrest⟩ := noLeadZeroGo_cons h
      simp only [parseLoop]
      by_cases hpar : c = '('
      · rw [if_pos hpar]
        have hdig : c.isDigit = false := by rw [hpar]; decide
        rw [hdig] at hrest
        obtain ⟨hcont, hafter⟩ := spanParen_nlz rest 1 false hrest
        have hsub : noLeadZeroGo false
            (if (spanParen 1 rest).2.2 then (spanParen 1 rest).1
              else (spanParen 1 rest).1.dropLast) = true := by
          split
          · exact hcont
          · exact noLeadZeroGo_dropLast _ false hcont
        have hsubE := ih _ false [] hsub (by simp)
        have hcount := count_pos_of_nlz _ hafter
        obtain ⟨b2, hb2⟩ := takeDigits_nlz _ false hafter
        exact ih _ b2 _ hb2 (mergeScaled_pos hacc hsubE hcount)
      · rw [if_neg hpar]
        by_cases hup : c.isUpper
        · rw [if_pos hup]
          have hdig : c.isDigit = false := isUpper_not_digit c hup
          rw [hdig] at hrest
          cases rest with
          | nil =>
            exact ih _ false _ (by rfl) (addCount_pos hacc (by omega))
          | cons c2 rest2 =>
            dsimp only
            obtain ⟨hc2, hrest2⟩ := noLeadZeroGo_cons hrest
            by_cases hlo : c2.isLower
            · rw [if_pos hlo]
              have hd2 : c2.isDigit = false := isLower_not_digit c2 hlo
              rw [hd2] at hrest2
              have hcount := count_pos_of_nlz rest2 hrest2
              obtain ⟨b2, hb2⟩ := takeDigits_nlz rest2 false hrest2
              exact ih _ b2 _ hb2 (addCount_pos hacc hcount)
            · rw [if_neg hlo]
              have hcount := count_pos_of_nlz (c2 :: rest2) hrest
              obtain ⟨b2, hb2⟩ := takeDigits_nlz (c2 :: rest2) false hrest
              exact ih _ b2 _ hb2 (addCount_pos hacc hcount)
        · rw [if_neg hup]
          exact ih _ c.isDigit _ hrest hacc

theorem mem_of_lookup :
    ∀ (l : List (String × Nat)) (e : String) (v : Nat),
      List.lookup e l = some v → (e, v) ∈ l := by
  intro l e v h
  induction l with
  | nil => simp [List.lookup] at h
  | cons p rest ih =>
    obtain ⟨k, w⟩ := p
    cases hk : (e == k) with
    | true =>
      simp only [List.lookup, hk] at h
      have he : e = k := by simpa using hk
      have hw : w = v := by simpa using h
      rw [he, ← hw]
      exact List.mem_cons_self _ _
    | false =>
      simp only [List.lookup, hk] at h
      exact List.mem_cons_of_mem _ (ih h)

/-- C7 as stated is false: parsing `"H0"` stores the element `H` with count `0`. -/
theorem parse_compound_zero_count :
    ¬ (∀ (l : List Char) (e : String) (v : Nat),
        List.lookup e (parse_compound l) = some v → 1 ≤ v) := by
  intro h
  have h0 := h ("H0".data) "H" 0 (by decide)
  omega

/-- C7 amended: over compound strings in which no digit run starts with `'0'`
(the character `'0'` occurs only right after another digit), every value stored in
the returned mapping is at least 1.  With an explicit zero subscript a zero count is
stored (see `parse_compound_zero_count`). -/
theorem parse_compound_counts_pos (l : List Char) (e : String) (v : Nat)
    (hz : noLeadZero l = true) (hl : List.lookup e (parse_compound l) = some v) :
    1 ≤ v :=
  parseLoop_values_pos (l.length + 1) l false [] hz (by simp) (e, v)
    (mem_of_lookup _ _ _ hl)

/-- Witness for the amended C7 at the compound `"Fe2(SO4)3"`. -/
theorem parse_compound_counts_pos_witness :
    noLeadZero ("Fe2(SO4)3".data) = true ∧ 1 ≤ 12 :=
  ⟨by decide, parse_compound_counts_pos ("Fe2(SO4)3".data) "O" 12 (by decide) (by decide)⟩

/-! ### Splitter: failure condition (C4) -/

theorem splitGo_length_eq :
    ∀ (fuel : Nat) (sep cur s : List Char), s.length < fuel → sep ≠ [] →
      (splitGo fuel sep cur s).length = countOccF fuel sep s + 1 := by
  intro fuel
  induction fuel with
  | zero => intro sep cur s h _; omega
  | succ fuel ih =>
    intro sep cur s h hsep
    cases s with
    | nil => rfl
    | cons c rest =>
      rw [splitGo, countOccF]
      by_cases hp : sep.isPrefixOf (c :: rest)
      · rw [if_pos hp, if_pos hp]
        have hdrop : ((c :: rest).drop sep.length).length < fuel := by
          rw [List.length_drop]
          have : 1 ≤ sep.length := by
            cases sep with
            | nil => exact absurd rfl hsep
            | cons _ _ => simp
          simp only [List.length_cons] at h ⊢
          omega
        rw [List.length_cons, ih sep [] _ hdrop hsep]
      · rw [if_neg hp, if_neg hp]
        have hrest : rest.length < fuel := by
          simp only [List.length_cons] at h
          omega
        exact ih sep (c :: cur) rest hrest hsep

theorem splitOnSeq_length (sep s : List Char) (hsep : sep ≠ []) :
    (splitOnSeq sep s).length = countOcc sep s + 1 :=
  splitGo_length_eq (s.length + 1) sep [] s (Nat.lt_succ_self _) hsep

/-- C4 as stated is false: for the input `"A-->"` the separator occurs exactly once
and the product half is empty after splitting, yet `parse_equation` returns the two
sides (with an empty product string) instead of failing. -/
theorem parse_equation_empty_side :
    parse_equation ("A-->".data) = some ([[ 'A' ]], [[]]) ∧
      countOcc ("-->".data) (normalizeEq ("A-->".data)) = 1 := by
  decide

/-- C4 amended: the splitter fails exactly when the canonical separator does not
occur exactly once in the normalized input; whenever it occurs exactly once the two
halves are returned, each further split on "+", with no emptiness check on either
half. -/
theorem parse_equation_split (l : List Char) :
    ((parse_equation l).isSome = true ↔ countOcc ("-->".data) (normalizeEq l) = 1) ∧
    (∀ a b : List Char, splitOnSeq ("-->".data) (normalizeEq l) = [a, b] →
      parse_equation l = some (splitOnSeq ("+".data) a, splitOnSeq ("+".data) b)) := by
  have hlen := splitOnSeq_length ("-->".data) (normalizeEq l) (by decide)
  constructor
  · rw [parse_equation]
    rcases hsp : splitOnSeq ("-->".data) (normalizeEq l) with _ | ⟨a, _ | ⟨b, _ | ⟨c, tl⟩⟩⟩
    · rw [hsp] at hlen
      exact absurd hlen (by simp)
    · rw [hsp] at hlen
      simp only [List.length_cons, List.length_nil] at hlen
      simp only [Option.isSome_none, Bool.false_eq_true, false_iff]
      omega
    · rw [hsp] at hlen
      simp only [List.length_cons, List.length_nil] at hlen
      simp only [Option.isSome_some, true_iff]
      omega
    · rw [hsp] at hlen
      simp only [List.length_cons, List.length_nil] at hlen
      simp only [Option.isSome_none, Bool.false_eq_true, false_iff]
      omega
  · intro a b hab
    rw [parse_equation, hab]

/-- Witness for the amended C4's return clause at a concrete equation. -/
theorem parse_equation_split_witness :
    parse_equation ("Fe+O2-->Fe2O3".data) =
      some (splitOnSeq ("+".data) ("Fe+O2".data), splitOnSeq ("+".data) ("Fe2O3".data)) :=
  (parse_equation_split ("Fe+O2-->Fe2O3".data)).2 ("Fe+O2".data) ("Fe2O3".data) (by decide)

/-! ### Concrete scenario Fe + O2 --> Fe2O3 (C8) -/

/-- C8 as stated is false: the formatter joins same-side compounds with `" + "`
(a plus surrounded by spaces), so the claimed exact output `"4Fe+3O2\to2Fe2O3"` is
not returned. -/
theorem balance_formatting_spaces :
    balance ("Fe+O2-->Fe2O3") ≠ some ("4Fe+3O2\\to2Fe2O3") := by decide

/-- C8 amended: input `"Fe+O2-->Fe2O3"` gives the coefficient vector `[4, 3, 2]` and
the exact output string `"4Fe + 3O2\to2Fe2O3"` — coefficients directly prefixed,
coefficient 1 elided, same-side compounds joined with `" + "`. -/
theorem balance_fe_o2 :
    balanceCoeffs ("Fe+O2-->Fe2O3".data) = some [4, 3, 2] ∧
      balance ("Fe+O2-->Fe2O3") = some ("4Fe + 3O2\\to2Fe2O3") := by decide

/-! ### Mutation of the balancer state (C9) -/

/-- C9 as stated is false: a successful `balance` call assigns
`self.compounds = reactants + products`, so a field of the instance is modified. -/
theorem balanceS_mutates :
    balanceS Balancer.init ("A-->A") = some (⟨[], [[ 'A' ], [ 'A' ]]⟩, "A\\toA") ∧
      (⟨[], [[ 'A' ], [ 'A' ]]⟩ : Balancer) ≠ Balancer.init := by
  decide

/-- C9 amended: each `balance` call overwrites the `compounds` field with the parsed
compound list of its own argument (so the instance state is mutated), but no
computation reads the mutated fields: the returned string is independent of the
incoming state, and `elements` is never written after `__init__`. -/
theorem balanceS_state (b : Balancer) (eq : String) :
    (balanceS b eq).map Prod.snd = (balanceS Balancer.init eq).map Prod.snd ∧
    (∀ (b2 : Balancer) (out : String), balanceS b eq = some (b2, out) →
      b2.elements = b.elements ∧
        ∃ rs ps, parse_equation eq.data = some (rs, ps) ∧ b2.compounds = rs ++ ps) := by
  cases hpe : parse_equation eq.data with
  | none =>
    constructor
    · simp [balanceS, parse_equationS, hpe]
    · intro b2 out hb2
      rw [balanceS, parse_equationS, hpe] at hb2
      simp at hb2
  | some rsps =>
    obtain ⟨rs, ps⟩ := rsps
    cases hsm : solve_matrix (build_matrix rs ps) with
    | none =>
      constructor
      · simp [balanceS, parse_equationS, hpe, hsm]
      · intro b2 out hb2
        rw [balanceS, parse_equationS, hpe] at hb2
        simp only [hsm] at hb2
        exact Option.noConfusion hb2
    | some cs =>
      constructor
      · simp [balanceS, parse_equationS, hpe, hsm]
      · intro b2 out hb2
        rw [balanceS, parse_equationS, hpe] at hb2
        simp only [hsm, Option.some.injEq] at hb2
        have h1 := congrArg Prod.fst hb2
        simp only at h1
        refine ⟨?_, rs, ps, rfl, ?_⟩
        · rw [← h1]
        · rw [← h1]

/-- Witness for the amended C9 at a concrete call from a nontrivial prior state. -/
theorem balanceS_state_witness :
    (⟨[("X", 1)], [[ 'A' ], [ 'A' ]]⟩ : Balancer).elements =
        (⟨[("X", 1)], [[ 'Q' ]]⟩ : Balancer).elements ∧
      ∃ rs ps, parse_equation (("A-->A" : String).data) = some (rs, ps) ∧
        (⟨[("X", 1)], [[ 'A' ], [ 'A' ]]⟩ : Balancer).compounds = rs ++ ps :=
  (balanceS_state ⟨[("X", 1)], [[ 'Q' ]]⟩ "A-->A").2 ⟨[("X", 1)], [[ 'A' ], [ 'A' ]]⟩
    "A\\toA" (by decide)

/-! ### Solver counterexamples (C2, C3) -/

/-- C2 as stated is false: the solver has no positivity guard after sign
normalization.  For `"A+B-->A"` the returned coefficient vector contains the
non-positive entry `0`, and `balance` returns `"A + 0B\toA"` instead of failing. -/
theorem balance_zero_coefficient :
    balanceCoeffs ("A+B-->A".data) = some [1, 0, 1] ∧
      balance ("A+B-->A") = some ("A + 0B\\toA") := by decide

/-- C3 as stated is false: with more than one free column the solver does not fail;
it returns the vector built from the first free column's basis vector. -/
theorem solve_matrix_two_free_columns :
    (freeCols (ncols [[1, 0, -1]]) (rref [[1, 0, -1]]).2).length = 2 ∧
      solve_matrix [[1, 0, -1]] = some [0, 1, 0] := by decide

/-! ### Solver: dot products and index utilities -/

theorem getD_set_self (l : List (List ℚ)) (i : Nat) (a : List ℚ) (h : i < l.length) :
    (l.set i a).getD i [] = a := by
  rw [List.getD_eq_getElem?_getD, List.getElem?_set, if_pos rfl, if_pos h]
  rfl

theorem getD_set_ne (l : List (List ℚ)) {i j : Nat} (a : List ℚ) (h : i ≠ j) :
    (l.set i a).getD j [] = l.getD j [] := by
  rw [List.getD_eq_getElem?_getD, List.getElem?_set, if_neg h, ← List.getD_eq_getElem?_getD]

theorem getD_drop (l : List (List ℚ)) (m i : Nat) :
    (l.drop m).getD i [] = l.getD (m + i) [] := by
  induction l generalizing m with
  | nil => simp
  | cons r rs ih =>
    cases m with
    | zero => simp
    | succ m =>
      rw [List.drop_succ_cons, ih m, show m + 1 + i = (m + i) + 1 from by omega,
        List.getD_cons_succ]

theorem dotq_nil_right (r : List ℚ) : dotq r [] = 0 := by
  cases r <;> rfl

theorem dotq_cons (a b : ℚ) (as bs : List ℚ) :
    dotq (a :: as) (b :: bs) = a * b + dotq as bs := by
  rw [dotq, qadd_eq, qmul_eq]

theorem dotq_map_div (p v : List ℚ) (x : ℚ) :
    dotq (p.map (fun y => qdiv y x)) v = dotq p v / x := by
  induction p generalizing v with
  | nil => simp [dotq]
  | cons a as ih =>
    cases v with
    | nil => rw [dotq_nil_right, dotq_nil_right, zero_div]
    | cons b bs =>
      rw [List.map_cons, dotq_cons, dotq_cons, ih bs, qdiv_eq, add_div, div_mul_eq_mul_div]

theorem dotq_map_mulR (r v : List ℚ) (c : ℚ) :
    dotq r (v.map (fun x => x * c)) = c * dotq r v := by
  induction r generalizing v with
  | nil => simp [dotq]
  | cons a as ih =>
    cases v with
    | nil => simp [dotq_nil_right]
    | cons b bs =>
      rw [List.map_cons, dotq_cons, dotq_cons, ih bs]
      ring

theorem dotq_map_divR (r v : List ℚ) (c : ℚ) :
    dotq r (v.map (fun x => x / c)) = dotq r v / c := by
  induction r generalizing v with
  | nil => simp [dotq]
  | cons a as ih =>
    cases v with
    | nil => simp [dotq_nil_right]
    | cons b bs =>
      rw [List.map_cons, dotq_cons, dotq_cons, ih bs, add_div, mul_div_assoc]

theorem dotq_map_negR (r v : List ℚ) :
    dotq r (v.map (fun x => -x)) = -dotq r v := by
  induction r generalizing v with
  | nil => simp [dotq]
  | cons a as ih =>
    cases v with
    | nil => simp [dotq_nil_right]
    | cons b bs =>
      rw [List.map_cons, dotq_cons, dotq_cons, ih bs]
      ring

theorem dotq_map_negL (r v : List ℚ) :
    dotq (r.map (fun x => -x)) v = -dotq r v := by
  induction r generalizing v with
  | nil => simp [dotq]
  | cons a as ih =>
    cases v with
    | nil => rw [dotq_nil_right, dotq_nil_right, neg_zero]
    | cons b bs =>
      rw [List.map_cons, dotq_cons, dotq_cons, ih bs]
      ring

theorem dotq_rowSub (r p v : List ℚ) (f : ℚ) (h : r.length = p.length) :
    dotq (rowSub r p f) v = dotq r v - f * dotq p v := by
  induction r generalizing p v with
  | nil =>
    have hp : p = [] := List.length_eq_zero.mp h.symm
    subst hp
    simp [rowSub, dotq]
  | cons a as ih =>
    cases p with
    | nil => simp at h
    | cons b bs =>
      cases v with
      | nil =>
        rw [dotq_nil_right, dotq_nil_right, dotq_nil_right]
        ring
      | cons c cs =>
        rw [rowSub, List.zipWith_cons_cons]
        rw [show (List.zipWith (fun a b => qsub a (qmul f b)) as bs) = rowSub as bs f from rfl]
        rw [dotq_cons, dotq_cons, dotq_cons, ih bs cs (by simpa using h), qsub_eq, qmul_eq]
        ring

theorem dotq_append (a b w : List ℚ) :
    dotq (a ++ b) w = dotq a (w.take a.length) + dotq b (w.drop a.length) := by
  induction a generalizing w with
  | nil => simp [dotq]
  | cons x xs ih =>
    cases w with
    | nil => simp [dotq_nil_right]
    | cons y ys =>
      rw [List.cons_append, dotq_cons, List.length_cons, List.take_succ_cons,
        List.drop_succ_cons, dotq_cons, ih ys]
      ring

theorem dotq_zero_right (r w : List ℚ) (h : ∀ x ∈ w, x = 0) : dotq r w = 0 := by
  induction r generalizing w with
  | nil => simp [dotq]
  | cons a as ih =>
    cases w with
    | nil => exact dotq_nil_right _
    | cons b bs =>
      rw [dotq_cons, h b (by simp), mul_zero, zero_add]
      exact ih bs (fun x hx => h x (by simp [hx]))

theorem dotq_eq_sum (r v : List ℚ) (h : r.length = v.length) :
    dotq r v = ∑ j ∈ Finset.range r.length, entry r j * entry v j := by
  induction r generalizing v with
  | nil => simp [dotq]
  | cons a as ih =>
    cases v with
    | nil => simp at h
    | cons b bs =>
      rw [dotq_cons, List.length_cons, Finset.sum_range_succ', ih bs (by simpa using h)]
      simp only [entry, List.getD_cons_succ, List.getD_cons_zero]
      ring

theorem entry_map_div (p : List ℚ) (x : ℚ) (j : Nat) :
    entry (p.map (fun y => qdiv y x)) j = entry p j / x := by
  induction p generalizing j with
  | nil => simp [entry, zero_div]
  | cons a as ih =>
    cases j with
    | zero => simp [entry, qdiv_eq]
    | succ j =>
      rw [List.map_cons]
      rw [show entry ((fun y => qdiv y x) a :: as.map (fun y => qdiv y x)) (j + 1)
          = entry (as.map (fun y => qdiv y x)) j from List.getD_cons_succ]
      rw [show entry (a :: as) (j + 1) = entry as j from List.getD_cons_succ]
      exact ih j

theorem entry_rowSub (r p : List ℚ) (f : ℚ) (j : Nat) (h : r.length = p.length) :
    entry (rowSub r p f) j = entry r j - f * entry p j := by
  induction r generalizing p j with
  | nil =>
    have hp : p = [] := List.length_eq_zero.mp h.symm
    subst hp
    simp [rowSub, entry]
  | cons a as ih =>
    cases p with
    | nil => simp at h
    | cons b bs =>
      rw [rowSub, List.zipWith_cons_cons]
      cases j with
      | zero => simp [entry, qsub_eq, qmul_eq]
      | succ j =>
        rw [show entry (qsub a (qmul f b) :: List.zipWith (fun a b => qsub a (qmul f b)) as bs)
            (j + 1) = entry (rowSub as bs f) j from List.getD_cons_succ]
        rw [show entry (a :: as) (j + 1) = entry as j from List.getD_cons_succ]
        rw [show entry (b :: bs) (j + 1) = entry bs j from List.getD_cons_succ]
        exact ih bs j (by simpa using h)

theorem length_rowSub (r p : List ℚ) (f : ℚ) :
    (rowSub r p f).length = min r.length p.length := by
  simp [rowSub]

/-! ### Solver: row operations preserve the kernel -/

/-- All rows have length `n`. -/
def Rect (n : Nat) (rows : List (List ℚ)) : Prop := ∀ r ∈ rows, r.length = n

/-- Vector v is orthogonal to every row (indexed formulation; out-of-range indices give
the empty row, whose product is `0`). -/
def KerIx (rows : List (List ℚ)) (v : List ℚ) : Prop := ∀ k, dotq (rows.getD k []) v = 0

theorem dotq_nil_left (v : List ℚ) : dotq [] v = 0 := rfl

theorem getD_out (l : List (List ℚ)) {k : Nat} (h : l.length ≤ k) : l.getD k [] = [] :=
  List.getD_eq_default _ _ h

theorem rect_getD {n : Nat} {rows : List (List ℚ)} (h : Rect n rows) {k : Nat}
    (hk : k < rows.length) : (rows.getD k []).length = n := by
  rw [List.getD_eq_getElem _ _ hk]
  exact h _ (List.getElem_mem hk)

theorem getD_mem_of_lt {rows : List (List ℚ)} {k : Nat} (hk : k < rows.length) :
    rows.getD k [] ∈ rows := by
  rw [List.getD_eq_getElem _ _ hk]
  exact List.getElem_mem hk

theorem length_listSwap (rows : List (List ℚ)) (i j : Nat) :
    (listSwap rows i j).length = rows.length := by
  simp [listSwap]

theorem getD_listSwap (rows : List (List ℚ)) {i j : Nat} (hi : i < rows.length)
    (hj : j < rows.length) (k : Nat) :
    (listSwap rows i j).getD k [] =
      if k = j then rows.getD i []
      else if k = i then rows.getD j [] else rows.getD k [] := by
  rw [listSwap]
  by_cases hkj : k = j
  · rw [if_pos hkj, hkj, getD_set_self _ _ _ (by rw [List.length_set]; exact hj)]
  · rw [if_neg hkj, getD_set_ne _ _ (fun h => hkj h.symm)]
    by_cases hki : k = i
    · rw [if_pos hki, hki, getD_set_self _ _ _ hi]
    · rw [if_neg hki, getD_set_ne _ _ (fun h => hki h.symm)]

theorem rect_listSwap {n : Nat} {rows : List (List ℚ)} {i j : Nat} (h : Rect n rows)
    (hi : i < rows.length) (hj : j < rows.length) : Rect n (listSwap rows i j) := by
  intro r hr
  rcases List.mem_or_eq_of_mem_set hr with hr1 | hr1
  · rcases List.mem_or_eq_of_mem_set hr1 with hr2 | hr2
    · exact h r hr2
    · subst hr2
      exact h _ (getD_mem_of_lt hj)
  · subst hr1
    exact h _ (getD_mem_of_lt hi)

theorem rect_set {n : Nat} {rows : List (List ℚ)} {i : Nat} {p : List ℚ} (h : Rect n rows)
    (hp : p.length = n) : Rect n (rows.set i p) := by
  intro r hr
  rcases List.mem_or_eq_of_mem_set hr with hr1 | hr1
  · exact h r hr1
  · subst hr1
    exact hp

theorem length_elimRows (p1 : List ℚ) (col pr : Nat) :
    ∀ (k : Nat) (rows : List (List ℚ)), (elimRows p1 col pr k rows).length = rows.length := by
  intro k rows
  induction rows generalizing k with
  | nil => rfl
  | cons r rs ih => simp [elimRows, ih]

theorem rect_elimRows {n : Nat} (p1 : List ℚ) (col pr : Nat) (hp1 : p1.length = n) :
    ∀ (k : Nat) (rows : List (List ℚ)), Rect n rows → Rect n (elimRows p1 col pr k rows) := by
  intro k rows
  induction rows generalizing k with
  | nil =>
    intro _ r hr
    simp [elimRows] at hr
  | cons r rs ih =>
    intro h r2 hr2
    rw [elimRows] at hr2
    rcases List.mem_cons.mp hr2 with h1 | h1
    · subst h1
      split
      · exact h r (by simp)
      · rw [length_rowSub, h r (by simp), hp1]
        exact Nat.min_self n
    · exact ih (k + 1) (fun q hq => h q (by simp [hq])) r2 h1

theorem getD_elimRows (p1 : List ℚ) (col pr : Nat) :
    ∀ (rows : List (List ℚ)) (k j : Nat),
      (elimRows p1 col pr k rows).getD j [] =
        if k + j = pr then rows.getD j []
        else rowSub (rows.getD j []) p1 (entry (rows.getD j []) col) := by
  intro rows
  induction rows with
  | nil =>
    intro k j
    simp only [show elimRows p1 col pr k [] = [] from rfl, List.getD_nil]
    split
    · rfl
    · rfl
  | cons r rs ih =>
    intro k j
    cases j with
    | zero =>
      rw [elimRows, List.getD_cons_zero, List.getD_cons_zero, Nat.add_zero]
    | succ j =>
      rw [elimRows, List.getD_cons_succ, List.getD_cons_succ, ih (k + 1) j,
        show k + 1 + j = k + (j + 1) from by omega]

theorem findNZ_some :
    ∀ (rs : List (List ℚ)) (col k r : Nat), findNZ col k rs = some r →
      k ≤ r ∧ r - k < rs.length ∧ entry (rs.getD (r - k) []) col ≠ 0 := by
  intro rs
  induction rs with
  | nil => intro col k r h; exact absurd h (by simp [findNZ])
  | cons r0 rest ih =>
    intro col k r h
    rw [findNZ] at h
    by_cases h0 : entry r0 col = 0
    · rw [if_pos h0] at h
      obtain ⟨h1, h2, h3⟩ := ih col (k + 1) r h
      refine ⟨by omega, by simp only [List.length_cons]; omega, ?_⟩
      rw [show r - k = (r - (k + 1)) + 1 from by omega, List.getD_cons_succ]
      exact h3
    · rw [if_neg h0] at h
      have hk : k = r := by simpa using h
      subst hk
      exact ⟨le_rfl, by simp, by simpa using h0⟩

theorem findNZ_none :
    ∀ (rs : List (List ℚ)) (col k : Nat), findNZ col k rs = none →
      ∀ i < rs.length, entry (rs.getD i []) col = 0 := by
  intro rs
  induction rs with
  | nil => intro col k _ i hi; simp at hi
  | cons r0 rest ih =>
    intro col k h i hi
    rw [findNZ] at h
    by_cases h0 : entry r0 col = 0
    · rw [if_pos h0] at h
      cases i with
      | zero => simpa using h0
      | succ i =>
        rw [List.getD_cons_succ]
        exact ih col (k + 1) h i (by simpa using hi)
    · rw [if_neg h0] at h
      exact absurd h (by simp)

theorem kerIx_listSwap {rows : List (List ℚ)} {i j : Nat} {v : List ℚ}
    (hi : i < rows.length) (hj : j < rows.length) :
    KerIx (listSwap rows i j) v ↔ KerIx rows v := by
  constructor
  · intro h k
    by_cases hki : k = i
    · have h2 := h j
      rw [getD_listSwap rows hi hj j, if_pos rfl] at h2
      rw [hki]
      exact h2
    · by_cases hkj : k = j
      · have h2 := h i
        rw [getD_listSwap rows hi hj i] at h2
        rw [hkj]
        by_cases hij : i = j
        · rw [if_pos hij] at h2
          rw [← hij]
          exact h2
        · rw [if_neg hij, if_pos rfl] at h2
          exact h2
      · have h2 := h k
        rw [getD_listSwap rows hi hj k, if_neg hkj, if_neg hki] at h2
        exact h2
  · intro h k
    rw [getD_listSwap rows hi hj k]
    split_ifs
    · exact h i
    · exact h j
    · exact h k

theorem kerIx_set_scale {rows1 : List (List ℚ)} {pr : Nat} {piv : ℚ} {v : List ℚ}
    (hpr : pr < rows1.length) (hpiv : piv ≠ 0) :
    KerIx (rows1.set pr ((rows1.getD pr []).map (fun x => qdiv x piv))) v ↔
      KerIx rows1 v := by
  constructor
  · intro h k
    by_cases hk : k = pr
    · subst hk
      have h2 := h k
      rw [getD_set_self _ _ _ hpr, dotq_map_div] at h2
      rcases div_eq_zero_iff.mp h2 with h3 | h3
      · exact h3
      · exact absurd h3 hpiv
    · have h2 := h k
      rw [getD_set_ne _ _ (fun he => hk he.symm)] at h2
      exact h2
  · intro h k
    by_cases hk : k = pr
    · subst hk
      rw [getD_set_self _ _ _ hpr, dotq_map_div, h k, zero_div]
    · rw [getD_set_ne _ _ (fun he => hk he.symm)]
      exact h k

theorem kerIx_elim {rows2 : List (List ℚ)} {p1 : List ℚ} {col pr : Nat} {v : List ℚ} {n : Nat}
    (hpr : pr < rows2.length) (hp : rows2.getD pr [] = p1) (hrect : Rect n rows2)
    (hp1 : p1.length = n) :
    KerIx (elimRows p1 col pr 0 rows2) v ↔ KerIx rows2 v := by
  have hget := getD_elimRows p1 col pr rows2 0
  constructor
  · intro h k
    by_cases hk : k = pr
    · subst hk
      have h2 := h k
      rw [hget k, if_pos (by omega)] at h2
      exact h2
    · by_cases hlen : k < rows2.length
      · have h2 := h k
        rw [hget k, if_neg (by omega),
          dotq_rowSub _ _ _ _ (by rw [rect_getD hrect hlen, hp1])] at h2
        have hpv : dotq p1 v = 0 := by
          have h3 := h pr
          rw [hget pr, if_pos (by omega), hp] at h3
          exact h3
        rw [hpv, mul_zero, sub_zero] at h2
        exact h2
      · rw [getD_out _ (by omega), dotq_nil_left]
  · intro h k
    rw [hget k]
    by_cases hk : 0 + k = pr
    · rw [if_pos hk]
      exact h k
    · rw [if_neg hk]
      by_cases hlen : k < rows2.length
      · rw [dotq_rowSub _ _ _ _ (by rw [rect_getD hrect hlen, hp1]), h k]
        have hpv : dotq p1 v = 0 := by
          rw [← hp]
          exact h pr
        rw [hpv, mul_zero, sub_zero]
      · rw [getD_out _ (by omega)]
        rw [show rowSub [] p1 (entry [] col) = [] from rfl, dotq_nil_left]

/-- Row reduction preserves the kernel: a vector is orthogonal to every row of the
RREF iff it is orthogonal to every row of the input matrix. -/
theorem rrefGo_ker (n : Nat) :
    ∀ (fuel : Nat) (rows : List (List ℚ)) (col pr : Nat) (pivots : List Nat) (v : List ℚ),
      Rect n rows → (KerIx (rrefGo fuel rows col pr pivots).1 v ↔ KerIx rows v) := by
  intro fuel
  induction fuel with
  | zero => intro rows col pr pivots v _; exact Iff.rfl
  | succ fuel ih =>
    intro rows col pr pivots v hrect
    rw [rrefGo]
    by_cases hpr : rows.length ≤ pr
    · rw [if_pos hpr]
    · rw [if_neg hpr]
      have hprlt : pr < rows.length := by omega
      cases hfz : findNZ col pr (rows.drop pr) with
      | none => exact ih rows (col + 1) pr pivots v hrect
      | some r =>
        obtain ⟨hkr, hrlen, hent⟩ := findNZ_some _ _ _ _ hfz
        have hrabs : r < rows.length := by
          rw [List.length_drop] at hrlen
          omega
        have hentry : entry (rows.getD r []) col ≠ 0 := by
          rw [getD_drop, show pr + (r - pr) = r from by omega] at hent
          exact hent
        dsimp only
        have hrect1 : Rect n (listSwap rows pr r) := rect_listSwap hrect hprlt hrabs
        have hpr1 : pr < (listSwap rows pr r).length := by
          rw [length_listSwap]
          exact hprlt
        have hpeq : (listSwap rows pr r).getD pr [] = rows.getD r [] := by
          rw [getD_listSwap rows hprlt hrabs pr]
          by_cases hpr2 : pr = r
          · rw [if_pos hpr2, hpr2]
          · rw [if_neg hpr2, if_pos rfl]
        have hpiv : entry ((listSwap rows pr r).getD pr []) col ≠ 0 := by
          rw [hpeq]
          exact hentry
        have hp1len : (((listSwap rows pr r).getD pr []).map
            (fun x => qdiv x (entry ((listSwap rows pr r).getD pr []) col))).length = n := by
          rw [List.length_map]
          exact rect_getD hrect1 hpr1
        have hrect2 : Rect n ((listSwap rows pr r).set pr
            (((listSwap rows pr r).getD pr []).map
              (fun x => qdiv x (entry ((listSwap rows pr r).getD pr []) col)))) :=
          rect_set hrect1 hp1len
        have hpr2 : pr < ((listSwap rows pr r).set pr
            (((listSwap rows pr r).getD pr []).map
              (fun x => qdiv x (entry ((listSwap rows pr r).getD pr []) col)))).length := by
          rw [List.length_set, length_listSwap]
          exact hprlt
        have hp1at : ((listSwap rows pr r).set pr
            (((listSwap rows pr r).getD pr []).map
              (fun x => qdiv x (entry ((listSwap rows pr r).getD pr []) col)))).getD pr []
            = ((listSwap rows pr r).getD pr []).map
              (fun x => qdiv x (entry ((listSwap rows pr r).getD pr []) col)) :=
          getD_set_self _ _ _ hpr1
        have hrect3 := rect_elimRows _ col pr hp1len 0 _ hrect2
        refine (ih _ (col + 1) (pr + 1) (pivots ++ [col]) v hrect3).trans ?_
        refine (kerIx_elim hpr2 hp1at hrect2 hp1len).trans ?_
        exact (kerIx_set_scale hpr1 hpiv).trans (kerIx_listSwap hprlt hrabs)

/-! ### Solver: structural invariant of the reduction -/

theorem getD_append_left {l1 l2 : List Nat} {i : Nat} (h : i < l1.length) (d : Nat) :
    (l1 ++ l2).getD i d = l1.getD i d := by
  induction l1 generalizing i with
  | nil => simp at h
  | cons x xs ih =>
    cases i with
    | zero => rfl
    | succ i =>
      rw [List.cons_append, List.getD_cons_succ, List.getD_cons_succ]
      exact ih (by simpa using h)

theorem getD_append_self (l1 : List Nat) (x : Nat) (d : Nat) :
    (l1 ++ [x]).getD l1.length d = x := by
  induction l1 with
  | nil => rfl
  | cons y ys ih =>
    rw [List.cons_append, List.length_cons, List.getD_cons_succ]
    exact ih

/-- Invariant of the column sweep: the processed pivot columns already form an
identity block, and all processed columns vanish on the rows at or below the
current pivot row. -/
structure RInv (n : Nat) (rows : List (List ℚ)) (col pr : Nat) (pivots : List Nat) : Prop where
  rect : Rect n rows
  plen : pivots.length = pr
  prle : pr ≤ rows.length
  pivlt : ∀ p ∈ pivots, p < col
  unit : ∀ i < pr, ∀ k < rows.length,
    entry (rows.getD k []) (pivots.getD i 0) = if k = i then 1 else 0
  zer : ∀ k, pr ≤ k → ∀ c < col, entry (rows.getD k []) c = 0

/-- What holds of the final reduced matrix: pivot columns carry an identity block
and the non-pivot rows vanish. -/
structure REnd (n : Nat) (R : List (List ℚ)) (piv : List Nat) : Prop where
  rect : Rect n R
  plle : piv.length ≤ R.length
  pivlt : ∀ p ∈ piv, p < n
  unit : ∀ i < piv.length, ∀ k < R.length,
    entry (R.getD k []) (piv.getD i 0) = if k = i then 1 else 0
  zer : ∀ k, piv.length ≤ k → ∀ c < n, entry (R.getD k []) c = 0

theorem entry_nil (c : Nat) : entry [] c = 0 := by
  simp [entry]

theorem pivotStep_inv {n : Nat} {rows : List (List ℚ)} {col pr r : Nat} {pivots : List Nat}
    (hinv : RInv n rows col pr pivots) (hcol : col < n) (hprlt : pr < rows.length)
    (hrge : pr ≤ r) (hrabs : r < rows.length)
    (hentry : entry (rows.getD r []) col ≠ 0) :
    RInv n
      (elimRows (((listSwap rows pr r).getD pr []).map
          (fun x => qdiv x (entry ((listSwap rows pr r).getD pr []) col))) col pr 0
        ((listSwap rows pr r).set pr
          (((listSwap rows pr r).getD pr []).map
            (fun x => qdiv x (entry ((listSwap rows pr r).getD pr []) col)))))
      (col + 1) (pr + 1) (pivots ++ [col]) := by
  have hpeq : (listSwap rows pr r).getD pr [] = rows.getD r [] := by
    rw [getD_listSwap rows hprlt hrabs pr]
    by_cases hpr2 : pr = r
    · rw [if_pos hpr2, hpr2]
    · rw [if_neg hpr2, if_pos rfl]
  set rows1 := listSwap rows pr r with hrows1
  set piv := entry (rows1.getD pr []) col with hpivdef
  set p1 := (rows1.getD pr []).map (fun x => qdiv x piv) with hp1def
  set rows2 := rows1.set pr p1 with hrows2
  set rows3 := elimRows p1 col pr 0 rows2 with hrows3
  have hpiv : piv ≠ 0 := by
    rw [hpivdef, hpeq]
    exact hentry
  have hrect1 : Rect n rows1 := rect_listSwap hinv.rect hprlt hrabs
  have hlen1 : rows1.length = rows.length := length_listSwap rows pr r
  have hpr1 : pr < rows1.length := by omega
  have hp_len : (rows1.getD pr []).length = n := rect_getD hrect1 hpr1
  have hp1_len : p1.length = n := by rw [hp1def, List.length_map, hp_len]
  have hrect2 : Rect n rows2 := rect_set hrect1 hp1_len
  have hlen2 : rows2.length = rows.length := by rw [hrows2, List.length_set, hlen1]
  have hrect3 : Rect n rows3 := rect_elimRows p1 col pr hp1_len 0 rows2 hrect2
  have hlen3 : rows3.length = rows.length := by rw [hrows3, length_elimRows, hlen2]
  have hent_p1 : ∀ j, entry p1 j = entry (rows1.getD pr []) j / piv := fun j =>
    entry_map_div _ piv j
  have hent_p1_col : entry p1 col = 1 := by
    rw [hent_p1 col, ← hpivdef]
    exact div_self hpiv
  have hent_p1_pivot : ∀ i < pr, entry p1 (pivots.getD i 0) = 0 := by
    intro i hi
    rw [hent_p1, hpeq]
    have h2 := hinv.unit i hi r hrabs
    rw [if_neg (by omega)] at h2
    rw [h2, zero_div]
  have hent_p1_old : ∀ c < col, entry p1 c = 0 := by
    intro c hc
    rw [hent_p1, hpeq, hinv.zer r hrge c hc, zero_div]
  have hrows2_at : ∀ k, rows2.getD k [] = if k = pr then p1 else rows1.getD k [] := by
    intro k
    by_cases hk : k = pr
    · rw [if_pos hk, hk, hrows2, getD_set_self _ _ _ hpr1]
    · rw [if_neg hk, hrows2, getD_set_ne _ _ (fun he => hk he.symm)]
  have hrows1_at : ∀ k, rows1.getD k [] =
      if k = r then rows.getD pr []
      else if k = pr then rows.getD r [] else rows.getD k [] :=
    fun k => getD_listSwap rows hprlt hrabs k
  have hrows2_pivot : ∀ k < rows.length, k ≠ pr → ∀ i < pr,
      entry (rows2.getD k []) (pivots.getD i 0) = if k = i then 1 else 0 := by
    intro k hk hkpr i hi
    rw [hrows2_at k, if_neg hkpr, hrows1_at k]
    by_cases hkr : k = r
    · rw [if_pos hkr]
      have h2 := hinv.unit i hi pr hprlt
      rw [if_neg (by omega)] at h2
      rw [h2, if_neg (by omega)]
    · rw [if_neg hkr, if_neg hkpr]
      exact hinv.unit i hi k hk
  have hrows2_zer : ∀ k < rows.length, pr + 1 ≤ k → ∀ c < col,
      entry (rows2.getD k []) c = 0 := by
    intro k hk hk1 c hc
    rw [hrows2_at k, if_neg (by omega), hrows1_at k]
    by_cases hkr : k = r
    · rw [if_pos hkr]
      exact hinv.zer pr le_rfl c hc
    · rw [if_neg hkr, if_neg (by omega)]
      exact hinv.zer k (by omega) c hc
  have hrows2_col : ∀ k < rows.length, (rows2.getD k []).length = n := by
    intro k hk
    exact rect_getD hrect2 (by omega)
  have hrows3_at : ∀ k, rows3.getD k [] =
      if k = pr then rows2.getD k []
      else rowSub (rows2.getD k []) p1 (entry (rows2.getD k []) col) := by
    intro k
    rw [hrows3, getD_elimRows p1 col pr rows2 0 k, Nat.zero_add]
  have hrows2_pr : rows2.getD pr [] = p1 := by
    rw [hrows2_at pr, if_pos rfl]
  refine { rect := hrect3, plen := ?_, prle := ?_, pivlt := ?_, unit := ?_, zer := ?_ }
  · rw [List.length_append, hinv.plen]
    rfl
  · omega
  · intro p hp
    rcases List.mem_append.mp hp with h1 | h1
    · exact (hinv.pivlt p h1).trans (Nat.lt_succ_self col)
    · rw [List.mem_singleton.mp h1]
      exact Nat.lt_succ_self col
  · intro i hi k hk
    rw [hlen3] at hk
    by_cases hipr : i < pr
    · have hgd : (pivots ++ [col]).getD i 0 = pivots.getD i 0 :=
        getD_append_left (by rw [hinv.plen]; exact hipr) 0
      rw [hgd]
      by_cases hkpr : k = pr
      · rw [hkpr, hrows3_at pr, if_pos rfl, hrows2_pr, hent_p1_pivot i hipr,
          if_neg (by omega)]
      · rw [hrows3_at k, if_neg hkpr,
          entry_rowSub _ _ _ _ (by rw [hrows2_col k hk, hp1_len]),
          hrows2_pivot k hk hkpr i hipr, hent_p1_pivot i hipr, mul_zero, sub_zero]
    · have hieq : i = pr := by omega
      subst hieq
      have hgd : (pivots ++ [col]).getD i 0 = col := by
        rw [← hinv.plen]
        exact getD_append_self pivots col 0
      rw [hgd]
      by_cases hkpr : k = i
      · rw [hkpr, hrows3_at i, if_pos rfl, hrows2_pr, hent_p1_col, if_pos rfl]
      · rw [hrows3_at k, if_neg hkpr,
          entry_rowSub _ _ _ _ (by rw [hrows2_col k hk, hp1_len]),
          hent_p1_col, mul_one, sub_self, if_neg hkpr]
  · intro k hk c hc
    by_cases hklen : k < rows.length
    · have hkpr : k ≠ pr := by omega
      rw [hrows3_at k, if_neg hkpr,
        entry_rowSub _ _ _ _ (by rw [hrows2_col k hklen, hp1_len])]
      by_cases hcc : c < col
      · rw [hrows2_zer k hklen hk c hcc, hent_p1_old c hcc, mul_zero, sub_zero]
      · have hceq : c = col := by omega
        subst hceq
        rw [hent_p1_col, mul_one, sub_self]
    · rw [getD_out _ (by omega), entry_nil]

/-- The sweep establishes the RREF structure. -/
theorem rrefGo_inv (n : Nat) :
    ∀ (fuel : Nat) (rows : List (List ℚ)) (col pr : Nat) (pivots : List Nat),
      RInv n rows col pr pivots → col + fuel = n →
      REnd n (rrefGo fuel rows col pr pivots).1 (rrefGo fuel rows col pr pivots).2 := by
  intro fuel
  induction fuel with
  | zero =>
    intro rows col pr pivots hinv hcf
    rw [rrefGo]
    exact { rect := hinv.rect, plle := hinv.plen ▸ hinv.prle,
            pivlt := fun p hp => by have := hinv.pivlt p hp; omega,
            unit := fun i hi k hk => hinv.unit i (hinv.plen ▸ hi) k hk,
            zer := fun k hk c hc => hinv.zer k (hinv.plen ▸ hk) c (by omega) }
  | succ fuel ih =>
    intro rows col pr pivots hinv hcf
    rw [rrefGo]
    by_cases hpr : rows.length ≤ pr
    · rw [if_pos hpr]
      dsimp only
      refine { rect := hinv.rect, plle := hinv.plen ▸ hinv.prle,
               pivlt := fun p hp => by have := hinv.pivlt p hp; omega,
               unit := fun i hi k hk => hinv.unit i (hinv.plen ▸ hi) k hk,
               zer := ?_ }
      intro k hk c hc
      rw [getD_out _ (by rw [hinv.plen] at hk; omega), entry_nil]
    · rw [if_neg hpr]
      have hprlt : pr < rows.length := by omega
      have hcol : col < n := by omega
      cases hfz : findNZ col pr (rows.drop pr) with
      | none =>
        apply ih rows (col + 1) pr pivots _ (by omega)
        refine { rect := hinv.rect, plen := hinv.plen, prle := hinv.prle,
                 pivlt := fun p hp => by have := hinv.pivlt p hp; omega,
                 unit := hinv.unit, zer := ?_ }
        intro k hk c hc
        by_cases hc2 : c < col
        · exact hinv.zer k hk c hc2
        · have hceq : c = col := by omega
          subst hceq
          by_cases hklen : k < rows.length
          · have h2 := findNZ_none _ _ _ hfz (k - pr) (by rw [List.length_drop]; omega)
            rw [getD_drop, show pr + (k - pr) = k from by omega] at h2
            exact h2
          · rw [getD_out _ (by omega), entry_nil]
      | some r =>
        obtain ⟨hkr, hrlen, hent⟩ := findNZ_some _ _ _ _ hfz
        have hrabs : r < rows.length := by
          rw [List.length_drop] at hrlen
          omega
        have hentry : entry (rows.getD r []) col ≠ 0 := by
          rw [getD_drop, show pr + (r - pr) = r from by omega] at hent
          exact hent
        dsimp only
        exact ih _ (col + 1) (pr + 1) (pivots ++ [col])
          (pivotStep_inv hinv hcol hprlt hkr hrabs hentry) (by omega)

/-! ### Solver: the constructed basis vector lies in the kernel of the RREF -/

theorem getD_mem {α : Type _} (l : List α) (d : α) {k : Nat} (hk : k < l.length) :
    l.getD k d ∈ l := by
  rw [List.getD_eq_getElem _ _ hk]
  exact List.getElem_mem hk

theorem pivIdx_none_iff (piv : List Nat) (j : Nat) : pivIdx piv j = none ↔ j ∉ piv := by
  induction piv with
  | nil => simp [pivIdx]
  | cons p rest ih =>
    rw [pivIdx]
    by_cases hp : p = j
    · simp [hp]
    · rw [if_neg hp, Option.map_eq_none', ih]
      simp only [List.mem_cons]
      constructor
      · intro h hmem
        rcases hmem with h1 | h1
        · exact hp h1.symm
        · exact h h1
      · intro h hmem
        exact h (Or.inr hmem)

theorem pivIdx_some (piv : List Nat) (j : Nat) :
    ∀ i, pivIdx piv j = some i → i < piv.length ∧ piv.getD i 0 = j := by
  induction piv with
  | nil => intro i h; simp [pivIdx] at h
  | cons p rest ih =>
    intro i h
    rw [pivIdx] at h
    by_cases hp : p = j
    · rw [if_pos hp] at h
      have : i = 0 := by simpa using h.symm
      subst this
      exact ⟨by simp, hp⟩
    · rw [if_neg hp] at h
      rcases Option.map_eq_some.mp h with ⟨i2, hi2, hadd⟩
      obtain ⟨hlt, hval⟩ := ih i2 hi2
      subst hadd
      exact ⟨by simpa using hlt, by rw [List.getD_cons_succ]; exact hval⟩

theorem pivIdx_self (piv : List Nat) (hnd : piv.Nodup) :
    ∀ i, i < piv.length → pivIdx piv (piv.getD i 0) = some i := by
  induction piv with
  | nil => intro i hi; simp at hi
  | cons p rest ih =>
    intro i hi
    cases i with
    | zero =>
      rw [List.getD_cons_zero, pivIdx, if_pos rfl]
    | succ i =>
      rw [List.getD_cons_succ, pivIdx,
        if_neg (fun hc => (List.nodup_cons.mp hnd).1
          (by rw [hc]; exact getD_mem rest 0 (by simpa using hi))),
        ih (List.nodup_cons.mp hnd).2 i (by simpa using hi)]
      rfl

theorem rend_nodup {n : Nat} {R : List (List ℚ)} {piv : List Nat} (h : REnd n R piv) :
    piv.Nodup := by
  rw [List.nodup_iff_injective_get]
  intro a b hab
  by_contra hne
  have ha : piv.getD a.1 0 = piv.getD b.1 0 := by
    rw [List.getD_eq_getElem _ _ a.2, List.getD_eq_getElem _ _ b.2]
    exact hab
  have h1 := h.unit a.1 a.2 b.1 (lt_of_lt_of_le b.2 h.plle)
  have h2 := h.unit b.1 b.2 b.1 (lt_of_lt_of_le b.2 h.plle)
  rw [if_neg (fun hc => hne (Fin.ext hc.symm))] at h1
  rw [if_pos rfl] at h2
  rw [ha] at h1
  exact one_ne_zero (by rw [← h2, h1])

theorem length_nsVec (R : List (List ℚ)) (piv : List Nat) (n j0 : Nat) :
    (nsVec R piv n j0).length = n := by
  simp [nsVec]

theorem entry_nsVec (R : List (List ℚ)) (piv : List Nat) (n j0 j : Nat) (hj : j < n) :
    entry (nsVec R piv n j0) j =
      if j = j0 then 1
      else
        match pivIdx piv j with
        | some i => -(entry (R.getD i []) j0)
        | none => 0 := by
  rw [entry, nsVec, List.getD_eq_getElem _ _ (by simpa using hj)]
  rw [List.getElem_map, List.getElem_range]
  by_cases hjj : j = j0
  · rw [if_pos hjj, if_pos hjj]
  · rw [if_neg hjj, if_neg hjj]
    cases hpi : pivIdx piv j with
    | none => rfl
    | some i =>
      dsimp only
      rw [qneg_eq]

/-- The constructed null-space basis vector is orthogonal to every row of the
reduced matrix. -/
theorem rend_ker_nsVec {n : Nat} {R : List (List ℚ)} {piv : List Nat}
    (hend : REnd n R piv) (hj0 : j0 < n) (hj0p : j0 ∉ piv) :
    KerIx R (nsVec R piv n j0) := by
  intro k
  by_cases hk : k < R.length
  · have hrow_len : (R.getD k []).length = n := rect_getD hend.rect hk
    have hv_len : (nsVec R piv n j0).length = n := length_nsVec R piv n j0
    rw [dotq_eq_sum _ _ (by rw [hrow_len, hv_len]), hrow_len]
    by_cases hkpiv : k < piv.length
    · have hpk_lt : piv.getD k 0 < n := hend.pivlt _ (getD_mem piv 0 hkpiv)
      have hpk_ne : piv.getD k 0 ≠ j0 := fun hc => hj0p (hc ▸ getD_mem piv 0 hkpiv)
      have hnd := rend_nodup hend
      have hsummand : ∀ j ∈ Finset.range n,
          entry (R.getD k []) j * entry (nsVec R piv n j0) j =
            (if j = j0 then entry (R.getD k []) j0 else 0) +
              (if j = piv.getD k 0 then -(entry (R.getD k []) j0) else 0) := by
        intro j hj
        rw [Finset.mem_range] at hj
        rw [entry_nsVec R piv n j0 j hj]
        by_cases hjj : j = j0
        · rw [if_pos hjj, if_pos hjj, if_neg (by rw [hjj]; exact fun hc => hpk_ne hc.symm),
            mul_one, hjj, add_zero]
        · rw [if_neg hjj, if_neg hjj]
          cases hpi : pivIdx piv j with
          | none =>
            have hcond : ¬ j = piv.getD k 0 := by
              intro hc
              rw [hc, pivIdx_self piv hnd k hkpiv] at hpi
              exact Option.noConfusion hpi
            dsimp only
            rw [mul_zero, if_neg hcond, add_zero]
          | some i =>
            obtain ⟨hilt, hival⟩ := pivIdx_some piv j i hpi
            by_cases hik : i = k
            · dsimp only
              have hcond : j = piv.getD k 0 := by
                rw [← hik]
                exact hival.symm
              rw [if_pos hcond]
              have hu := hend.unit i hilt k hk
              rw [if_pos hik.symm, hival] at hu
              rw [hik, hu, one_mul, zero_add]
            · dsimp only
              have hcond : ¬ j = piv.getD k 0 := by
                intro hc
                rw [hc, pivIdx_self piv hnd k hkpiv] at hpi
                exact hik (Option.some.inj hpi).symm
              have hu := hend.unit i hilt k hk
              rw [if_neg (fun hc => hik hc.symm), hival] at hu
              rw [hu, zero_mul, if_neg hcond, add_zero]
      rw [Finset.sum_congr rfl hsummand, Finset.sum_add_distrib,
        Finset.sum_ite_eq' (Finset.range n) j0 (fun _ => entry (R.getD k []) j0),
        Finset.sum_ite_eq' (Finset.range n) (piv.getD k 0)
          (fun _ => -(entry (R.getD k []) j0)),
        if_pos (Finset.mem_range.mpr hj0), if_pos (Finset.mem_range.mpr hpk_lt)]
      ring
    · have hz : ∀ j ∈ Finset.range n, entry (R.getD k []) j * entry (nsVec R piv n j0) j = 0 := by
        intro j hj
        rw [Finset.mem_range] at hj
        rw [hend.zer k (by omega) j hj, zero_mul]
      rw [Finset.sum_congr rfl hz, Finset.sum_const_zero]
  · rw [getD_out _ (by omega), dotq_nil_left]

/-! ### Solver: integer normalization preserves the kernel -/

theorem dvd_foldl_lcm (l : List ℚ) : ∀ a : ℕ, a ∣ l.foldl (fun a x => Nat.lcm a x.den) a := by
  induction l with
  | nil => intro a; exact dvd_rfl
  | cons x xs ih =>
    intro a
    rw [List.foldl_cons]
    exact dvd_trans (Nat.dvd_lcm_left a x.den) (ih _)

theorem den_dvd_foldl (l : List ℚ) :
    ∀ (a : ℕ) (x : ℚ), x ∈ l → x.den ∣ l.foldl (fun a x => Nat.lcm a x.den) a := by
  induction l with
  | nil => intro a x hx; simp at hx
  | cons y ys ih =>
    intro a x hx
    rw [List.foldl_cons]
    rcases List.mem_cons.mp hx with h1 | h1
    · subst h1
      exact dvd_trans (Nat.dvd_lcm_right a x.den) (dvd_foldl_lcm ys _)
    · exact ih _ x h1

theorem den_dvd_lcmDen (l : List ℚ) : ∀ x ∈ l, x.den ∣ lcmDen l := fun x hx =>
  den_dvd_foldl l 1 x hx

theorem foldl_lcm_ne_zero (l : List ℚ) : ∀ a : ℕ, a ≠ 0 →
    l.foldl (fun a x => Nat.lcm a x.den) a ≠ 0 := by
  induction l with
  | nil => intro a ha; exact ha
  | cons x xs ih =>
    intro a ha
    rw [List.foldl_cons]
    exact ih _ (Nat.lcm_ne_zero ha x.den_nz)

theorem lcmDen_ne_zero (l : List ℚ) : lcmDen l ≠ 0 :=
  foldl_lcm_ne_zero l 1 one_ne_zero

theorem rat_mul_den (x : ℚ) : x * (x.den : ℚ) = (x.num : ℚ) := by
  nth_rewrite 1 [← Rat.num_div_den x]
  rw [div_mul_cancel₀]
  exact_mod_cast x.den_nz

theorem intScaled_cast (v : List ℚ) :
    (intScaled v).map (fun z : ℤ => (z : ℚ)) = v.map (fun x => x * (lcmDen v : ℚ)) := by
  rw [intScaled, List.map_map]
  apply List.map_congr_left
  intro x hx
  obtain ⟨k, hk⟩ := den_dvd_lcmDen v x hx
  have h1 : qmul x (mkRat (lcmDen v : ℤ) 1) = x * (lcmDen v : ℚ) := by
    rw [qmul_eq, Rat.mkRat_one]
    push_cast
    ring
  have h2 : x * (lcmDen v : ℚ) = ((x.num * (k : ℤ) : ℤ) : ℚ) := by
    have hden : (lcmDen v : ℚ) = (x.den : ℚ) * (k : ℚ) := by exact_mod_cast hk
    rw [hden, ← mul_assoc, rat_mul_den]
    push_cast
    ring
  show ((qmul x (mkRat (lcmDen v : ℤ) 1)).num : ℚ) = x * (lcmDen v : ℚ)
  rw [h1, h2, Rat.num_intCast]

theorem foldl_pgcd_dvd_init (l : List ℤ) : ∀ a : ℤ, l.foldl pgcd a ∣ a := by
  induction l with
  | nil => intro a; exact dvd_rfl
  | cons x xs ih =>
    intro a
    rw [List.foldl_cons]
    exact dvd_trans (ih _) Int.gcd_dvd_left

theorem foldl_pgcd_dvd_mem (l : List ℤ) : ∀ (a x : ℤ), x ∈ l → l.foldl pgcd a ∣ x := by
  induction l with
  | nil => intro a x hx; simp at hx
  | cons y ys ih =>
    intro a x hx
    rw [List.foldl_cons]
    rcases List.mem_cons.mp hx with h1 | h1
    · subst h1
      exact dvd_trans (foldl_pgcd_dvd_init ys _) Int.gcd_dvd_right
    · exact ih _ x h1

theorem pygcd_dvd (l : List ℤ) : ∀ x ∈ l, pygcd l ∣ x := by
  intro x hx
  cases l with
  | nil => simp at hx
  | cons h t =>
    rw [pygcd]
    rcases List.mem_cons.mp hx with h1 | h1
    · subst h1
      exact foldl_pgcd_dvd_init t _
    · exact foldl_pgcd_dvd_mem t _ x h1

theorem fdiv_cast (c g : ℤ) (h : g ∣ c) (hg : g ≠ 0) :
    ((Int.fdiv c g : ℤ) : ℚ) = (c : ℚ) / (g : ℚ) := by
  obtain ⟨k, hk⟩ := h
  subst hk
  rw [Int.mul_fdiv_cancel_left k hg]
  push_cast
  rw [mul_div_cancel_left₀]
  exact_mod_cast hg

/-- If the solver returns a coefficient vector, that vector (as rationals) is
orthogonal to every row of the matrix. -/
theorem solve_matrix_ker (M : List (List ℚ)) (cs : List ℤ) (n : Nat)
    (hrect : Rect n M) (hn : ncols M = n) (hsolve : solve_matrix M = some cs) :
    ∀ r ∈ M, dotq r (cs.map (fun z : ℤ => (z : ℚ))) = 0 := by
  subst hn
  rw [solve_matrix] at hsolve
  cases hfc : freeCols (ncols M) (rref M).2 with
  | nil =>
    rw [hfc] at hsolve
    exact absurd hsolve (by simp)
  | cons j0 rest =>
    rw [hfc] at hsolve
    have hcs : cs = normalizeCoeffs (nsVec (rref M).1 (rref M).2 (ncols M) j0) :=
      (Option.some.inj hsolve).symm
    have hj0mem : j0 ∈ freeCols (ncols M) (rref M).2 := by
      rw [hfc]
      exact List.mem_cons_self _ _
    have hj0n : j0 < ncols M := by
      have h2 := hj0mem
      rw [freeCols, List.mem_filter, List.mem_range] at h2
      exact h2.1
    have hj0p : j0 ∉ (rref M).2 := by
      have h2 := hj0mem
      rw [freeCols, List.mem_filter] at h2
      simpa using h2.2
    have hinv0 : RInv (ncols M) M 0 0 [] :=
      { rect := hrect, plen := rfl, prle := Nat.zero_le _,
        pivlt := by intro p hp; simp at hp,
        unit := by intro i hi; omega,
        zer := by intro k hk c hc; omega }
    have hend : REnd (ncols M) (rref M).1 (rref M).2 := by
      rw [rref]
      exact rrefGo_inv (ncols M) (ncols M) M 0 0 [] hinv0 (by omega)
    have hkerR : KerIx (rref M).1 (nsVec (rref M).1 (rref M).2 (ncols M) j0) :=
      rend_ker_nsVec hend hj0n hj0p
    have hkerM : KerIx M (nsVec (rref M).1 (rref M).2 (ncols M) j0) := by
      rw [rref] at hkerR
      exact (rrefGo_ker (ncols M) (ncols M) M 0 0 [] _ hrect).mp hkerR
    intro r hr
    obtain ⟨k, hk, hkr⟩ := List.mem_iff_getElem.mp hr
    have hrk : dotq r (nsVec (rref M).1 (rref M).2 (ncols M) j0) = 0 := by
      have h2 := hkerM k
      rw [List.getD_eq_getElem _ _ hk, hkr] at h2
      exact h2
    have hc0 : dotq r ((intScaled (nsVec (rref M).1 (rref M).2 (ncols M) j0)).map
        (fun z : ℤ => (z : ℚ))) = 0 := by
      rw [intScaled_cast, dotq_map_mulR, hrk, mul_zero]
    have hc1 : dotq r ((signNorm (intScaled (nsVec (rref M).1 (rref M).2 (ncols M) j0))).map
        (fun z : ℤ => (z : ℚ))) = 0 := by
      rw [signNorm]
      split
      · rw [List.map_map]
        have hmm : ((fun z : ℤ => (z : ℚ)) ∘ (fun c : ℤ => -c)) =
            (fun x : ℚ => -x) ∘ (fun z : ℤ => (z : ℚ)) := by
          funext z
          simp
        rw [hmm, ← List.map_map, dotq_map_negR, hc0, neg_zero]
      · exact hc0
    by_cases hg : pygcd (signNorm (intScaled (nsVec (rref M).1 (rref M).2 (ncols M) j0))) = 0
    · have hall : ∀ y ∈ cs.map (fun z : ℤ => (z : ℚ)), y = 0 := by
        intro y hy
        rw [hcs, normalizeCoeffs] at hy
        rw [List.map_map] at hy
        obtain ⟨c, hc, hyc⟩ := List.mem_map.mp hy
        have hdvd := pygcd_dvd _ c hc
        rw [hg] at hdvd
        have hc0' : c = 0 := zero_dvd_iff.mp hdvd
        rw [← hyc]
        simp [hc0', hg, Int.fdiv]
      exact dotq_zero_right r _ hall
    · have hcast : cs.map (fun z : ℤ => (z : ℚ)) =
          ((signNorm (intScaled (nsVec (rref M).1 (rref M).2 (ncols M) j0))).map
            (fun z : ℤ => (z : ℚ))).map
            (fun x => x / ((pygcd (signNorm (intScaled
              (nsVec (rref M).1 (rref M).2 (ncols M) j0))) : ℤ) : ℚ)) := by
        rw [hcs, normalizeCoeffs, List.map_map, List.map_map]
        apply List.map_congr_left
        intro c hc
        exact fdiv_cast c _ (pygcd_dvd _ c hc) hg
      rw [hcast, dotq_map_divR, hc1, zero_div]

/-! ### Conservation of every element (C1) -/

/-- Sum of `count × coefficient` over one side. -/
def sideSum (e : String) (comps : List (List Char)) (ks : List ℤ) : ℤ :=
  (List.zipWith (fun comp k => (countE e comp : ℤ) * k) comps ks).sum

theorem build_matrix_rect (rs ps : List (List Char)) :
    Rect (rs.length + ps.length) (build_matrix rs ps) := by
  intro r hr
  rw [build_matrix] at hr
  obtain ⟨e, _, hre⟩ := List.mem_map.mp hr
  rw [← hre, List.length_append, List.length_map, List.length_map]

theorem mem_insKey (acc : List String) (k x : String) :
    x ∈ insKey acc k ↔ x ∈ acc ∨ x = k := by
  rw [insKey]
  split
  · constructor
    · exact Or.inl
    · intro h
      rcases h with h1 | h1
      · exact h1
      · rw [h1]
        assumption
  · simp

theorem inner_insKey_mono :
    ∀ (pc : List (String × Nat)) (acc : List String) (x : String), x ∈ acc →
      x ∈ pc.foldl (fun a p => insKey a p.1) acc := by
  intro pc
  induction pc with
  | nil => intro acc x h; exact h
  | cons p rest ih =>
    intro acc x h
    rw [List.foldl_cons]
    exact ih _ x ((mem_insKey acc p.1 x).mpr (Or.inl h))

theorem inner_insKey_mem :
    ∀ (pc : List (String × Nat)) (acc : List String) (e : String) (v : Nat), (e, v) ∈ pc →
      e ∈ pc.foldl (fun a p => insKey a p.1) acc := by
  intro pc
  induction pc with
  | nil => intro acc e v h; simp at h
  | cons p rest ih =>
    intro acc e v h
    rw [List.foldl_cons]
    rcases List.mem_cons.mp h with h1 | h1
    · exact inner_insKey_mono rest _ e
        ((mem_insKey acc p.1 e).mpr (Or.inr (congrArg Prod.fst h1)))
    · exact ih _ e v h1

theorem outer_insKey_mono :
    ∀ (L : List (List Char)) (acc : List String) (x : String), x ∈ acc →
      x ∈ L.foldl (fun acc comp => (parse_compound comp).foldl (fun a p => insKey a p.1) acc)
        acc := by
  intro L
  induction L with
  | nil => intro acc x h; exact h
  | cons c rest ih =>
    intro acc x h
    rw [List.foldl_cons]
    exact ih _ x (inner_insKey_mono _ acc x h)

theorem mem_allElements {rs ps : List (List Char)} {comp : List Char} {e : String} {v : Nat}
    (hcomp : comp ∈ rs ++ ps) (hev : (e, v) ∈ parse_compound comp) :
    e ∈ allElements rs ps := by
  rw [allElements]
  have key : ∀ (L : List (List Char)) (acc : List String), comp ∈ L →
      e ∈ L.foldl (fun acc comp => (parse_compound comp).foldl (fun a p => insKey a p.1) acc)
        acc := by
    intro L
    induction L with
    | nil => intro acc h; simp at h
    | cons c rest ih =>
      intro acc h
      rw [List.foldl_cons]
      rcases List.mem_cons.mp h with h1 | h1
      · subst h1
        exact outer_insKey_mono rest _ e (inner_insKey_mem _ acc e v hev)
      · exact ih _ h1
  exact key (rs ++ ps) [] hcomp

theorem countE_eq_zero {rs ps : List (List Char)} {comp : List Char} {e : String}
    (hcomp : comp ∈ rs ++ ps) (he : e ∉ allElements rs ps) : countE e comp = 0 := by
  rw [countE]
  cases hl : List.lookup e (parse_compound comp) with
  | none => rfl
  | some v => exact absurd (mem_allElements hcomp (mem_of_lookup _ _ _ hl)) he

theorem sideSum_zero (e : String) :
    ∀ (comps : List (List Char)) (ks : List ℤ), (∀ comp ∈ comps, countE e comp = 0) →
      sideSum e comps ks = 0 := by
  intro comps
  induction comps with
  | nil => intro ks _; rfl
  | cons c rest ih =>
    intro ks h
    cases ks with
    | nil => rfl
    | cons k kt =>
      rw [sideSum, List.zipWith_cons_cons, List.sum_cons, h c (by simp), Nat.cast_zero,
        zero_mul, zero_add]
      exact ih kt (fun comp hc => h comp (by simp [hc]))

theorem dotq_counts (e : String) :
    ∀ (comps : List (List Char)) (ks : List ℤ),
      dotq (comps.map (fun comp => ((countE e comp : ℤ) : ℚ)))
          (ks.map (fun z : ℤ => (z : ℚ))) =
        ((sideSum e comps ks : ℤ) : ℚ) := by
  intro comps
  induction comps with
  | nil => intro ks; simp [dotq, sideSum]
  | cons c rest ih =>
    intro ks
    cases ks with
    | nil =>
      rw [List.map_nil, dotq_nil_right]
      simp [sideSum]
    | cons k kt =>
      rw [List.map_cons, List.map_cons, dotq_cons, ih kt]
      rw [show sideSum e (c :: rest) (k :: kt)
          = (countE e c : ℤ) * k + sideSum e rest kt from by
        rw [sideSum, sideSum, List.zipWith_cons_cons, List.sum_cons]]
      push_cast
      ring

/-- C1: whenever `balance` returns (the split succeeds and the solver returns a
coefficient vector), every element symbol is conserved: the sum of
`parsed count × coefficient` over the reactants equals the same sum over the
products. -/
theorem balance_conservation (l : List Char) (rs ps : List (List Char)) (cs : List ℤ)
    (_hpe : parse_equation l = some (rs, ps))
    (hsm : solve_matrix (build_matrix rs ps) = some cs) (e : String) :
    sideSum e rs (cs.take rs.length) = sideSum e ps (cs.drop rs.length) := by
  by_cases he : e ∈ allElements rs ps
  · have hrect := build_matrix_rect rs ps
    have hncols : ncols (build_matrix rs ps) = rs.length + ps.length := by
      cases hAE : allElements rs ps with
      | nil =>
        rw [hAE] at he
        simp at he
      | cons e0 es =>
        rw [ncols, build_matrix, hAE, List.map_cons, List.headD_cons, List.length_append,
          List.length_map, List.length_map]
    have hker := solve_matrix_ker _ cs _ hrect hncols hsm
    have hrow : (rs.map (fun comp => qneg (mkRat (countE e comp : ℤ) 1))
        ++ ps.map (fun comp => mkRat (countE e comp : ℤ) 1)) ∈ build_matrix rs ps := by
      rw [build_matrix]
      exact List.mem_map_of_mem _ he
    have h0 := hker _ hrow
    rw [dotq_append, List.length_map] at h0
    have hneg : rs.map (fun comp => qneg (mkRat (countE e comp : ℤ) 1))
        = (rs.map (fun comp => ((countE e comp : ℤ) : ℚ))).map (fun x => -x) := by
      rw [List.map_map]
      apply List.map_congr_left
      intro comp _
      show qneg (mkRat (countE e comp : ℤ) 1) = -(((countE e comp : ℤ) : ℚ))
      rw [qneg_eq, Rat.mkRat_one]
    have hpos : ps.map (fun comp => mkRat (countE e comp : ℤ) 1)
        = ps.map (fun comp => ((countE e comp : ℤ) : ℚ)) := by
      apply List.map_congr_left
      intro comp _
      exact Rat.mkRat_one _
    rw [hneg, hpos, dotq_map_negL, ← List.map_take, ← List.map_drop, dotq_counts,
      dotq_counts] at h0
    have hq : ((sideSum e rs (cs.take rs.length) : ℤ) : ℚ)
        = ((sideSum e ps (cs.drop rs.length) : ℤ) : ℚ) := by linarith
    exact_mod_cast hq
  · rw [sideSum_zero e rs _ (fun comp hc => countE_eq_zero (List.mem_append_left ps hc) he),
      sideSum_zero e ps _ (fun comp hc => countE_eq_zero (List.mem_append_right rs hc) he)]

/-- Witness for C1 at the iron-oxidation equation and the element `"O"`. -/
theorem balance_conservation_witness :
    sideSum ("O") [("Fe".data), ("O2".data)] (([4, 3, 2] : List ℤ).take 2) =
      sideSum ("O") [("Fe2O3".data)] (([4, 3, 2] : List ℤ).drop 2) :=
  balance_conservation ("Fe+O2-->Fe2O3".data) [("Fe".data), ("O2".data)] [("Fe2O3".data)]
    [4, 3, 2] (by decide) (by decide) "O"

/-! ### Solver: failure condition, nonzero entries, gcd (C3, C2, C5) -/

theorem getD_map_lt {α β : Type _} (f : α → β) (l : List α) {j : Nat} (hj : j < l.length)
    (d : β) (d2 : α) : (l.map f).getD j d = f (l.getD j d2) := by
  rw [List.getD_eq_getElem _ _ (by simpa using hj), List.getElem_map,
    List.getD_eq_getElem _ _ hj]

theorem length_intScaled (v : List ℚ) : (intScaled v).length = v.length := by
  rw [intScaled, List.length_map]

theorem length_signNorm (l : List ℤ) : (signNorm l).length = l.length := by
  rw [signNorm]
  split
  · rw [List.length_map]
  · rfl

theorem length_normalizeCoeffs (v : List ℚ) : (normalizeCoeffs v).length = v.length := by
  rw [normalizeCoeffs, List.length_map, length_signNorm, length_intScaled]

theorem nsVec_getD_self (R : List (List ℚ)) (piv : List Nat) {n j0 : Nat} (hj : j0 < n) :
    (nsVec R piv n j0).getD j0 0 = 1 := by
  have h := entry_nsVec R piv n j0 j0 hj
  rw [if_pos rfl] at h
  rw [entry] at h
  exact h

theorem intScaled_getD_lcm (v : List ℚ) {j0 : Nat} (hj : j0 < v.length)
    (hv : v.getD j0 0 = 1) : (intScaled v).getD j0 0 = ((lcmDen v : ℕ) : ℤ) := by
  rw [intScaled, getD_map_lt _ _ hj 0 0, hv, qmul_eq, one_mul, Rat.mkRat_one,
    Rat.num_intCast]

theorem signNorm_getD_ne (v : List ℚ) {j0 : Nat} (hj : j0 < v.length)
    (hv : v.getD j0 0 = 1) : (signNorm (intScaled v)).getD j0 0 ≠ 0 := by
  have hL : ((lcmDen v : ℕ) : ℤ) ≠ 0 := Int.natCast_ne_zero.mpr (lcmDen_ne_zero v)
  rw [signNorm]
  split
  · rw [getD_map_lt _ _ (by rw [length_intScaled]; exact hj) 0 0,
      intScaled_getD_lcm v hj hv]
    exact neg_ne_zero.mpr hL
  · rw [intScaled_getD_lcm v hj hv]
    exact hL

theorem pygcd_signNorm_ne (v : List ℚ) {j0 : Nat} (hj : j0 < v.length)
    (hv : v.getD j0 0 = 1) : pygcd (signNorm (intScaled v)) ≠ 0 := by
  intro h0
  have hdvd := pygcd_dvd (signNorm (intScaled v)) _
    (getD_mem _ 0 (by rw [length_signNorm, length_intScaled]; exact hj))
  rw [h0] at hdvd
  exact signNorm_getD_ne v hj hv (zero_dvd_iff.mp hdvd)

/-- C3 amended: the solver fails exactly when the null space is empty — zero free
columns in the RREF.  With one or more free columns it returns (the basis vector of
the first free column, normalized), with no error for extra free columns. -/
theorem solve_matrix_none_iff (M : List (List ℚ)) :
    solve_matrix M = none ↔ freeCols (ncols M) (rref M).2 = [] := by
  rw [solve_matrix]
  cases hfc : freeCols (ncols M) (rref M).2 with
  | nil => simp
  | cons j0 rest => simp

/-- C2 amended: the solver has no positivity guard — returned vectors may contain
zero or negative entries — but every returned coefficient vector contains at least
one nonzero entry (the scaled free-column entry survives all normalizations). -/
theorem solve_matrix_nonzero_entry (M : List (List ℚ)) (cs : List ℤ)
    (hsolve : solve_matrix M = some cs) : ∃ c ∈ cs, c ≠ 0 := by
  rw [solve_matrix] at hsolve
  cases hfc : freeCols (ncols M) (rref M).2 with
  | nil =>
    rw [hfc] at hsolve
    exact absurd hsolve (by simp)
  | cons j0 rest =>
    rw [hfc] at hsolve
    have hcs : cs = normalizeCoeffs (nsVec (rref M).1 (rref M).2 (ncols M) j0) :=
      (Option.some.inj hsolve).symm
    have hj0n : j0 < ncols M := by
      have h2 : j0 ∈ freeCols (ncols M) (rref M).2 := by
        rw [hfc]
        exact List.mem_cons_self _ _
      rw [freeCols, List.mem_filter, List.mem_range] at h2
      exact h2.1
    have hvlen : (nsVec (rref M).1 (rref M).2 (ncols M) j0).length = ncols M :=
      length_nsVec _ _ _ _
    have hj0v : j0 < (nsVec (rref M).1 (rref M).2 (ncols M) j0).length := by omega
    have hv1 : (nsVec (rref M).1 (rref M).2 (ncols M) j0).getD j0 0 = 1 :=
      nsVec_getD_self _ _ hj0n
    have hgne := pygcd_signNorm_ne _ hj0v hv1
    have hdvd := pygcd_dvd (signNorm (intScaled (nsVec (rref M).1 (rref M).2 (ncols M) j0))) _
      (getD_mem _ 0 (by rw [length_signNorm, length_intScaled]; exact hj0v))
    have hcsj0 : cs.getD j0 0 = Int.fdiv
        ((signNorm (intScaled (nsVec (rref M).1 (rref M).2 (ncols M) j0))).getD j0 0)
        (pygcd (signNorm (intScaled (nsVec (rref M).1 (rref M).2 (ncols M) j0)))) := by
      rw [hcs, normalizeCoeffs,
        getD_map_lt _ _ (by rw [length_signNorm, length_intScaled]; exact hj0v) 0 0]
    have hne : cs.getD j0 0 ≠ 0 := by
      rw [hcsj0]
      obtain ⟨k, hk⟩ := hdvd
      rw [hk, Int.mul_fdiv_cancel_left k hgne]
      intro hk0
      rw [hk0, mul_zero] at hk
      exact signNorm_getD_ne _ hj0v hv1 hk
    have hcslen : j0 < cs.length := by
      rw [hcs, length_normalizeCoeffs]
      exact hj0v
    exact ⟨cs.getD j0 0, getD_mem cs 0 hcslen, hne⟩

/-- Witness for the amended C2 at a concrete 1×2 matrix. -/
theorem solve_matrix_nonzero_entry_witness : ∃ c ∈ ([1, 1] : List ℤ), c ≠ 0 :=
  solve_matrix_nonzero_entry [[-1, 1]] [1, 1] (by decide)

/-! ### Irreducibility of the coefficient vector (C5) -/

/-- GCD of all entries of an integer list. -/
def gcdAll (l : List ℤ) : ℕ := l.foldl (fun g c => Int.gcd (g : ℤ) c) 0

theorem foldl_gcd_cast (t : List ℤ) :
    ∀ m : ℕ, t.foldl pgcd ((m : ℕ) : ℤ) =
      ((t.foldl (fun g c => Int.gcd (g : ℤ) c) m : ℕ) : ℤ) := by
  induction t with
  | nil => intro m; rfl
  | cons x xs ih =>
    intro m
    rw [List.foldl_cons, List.foldl_cons]
    exact ih (Int.gcd (m : ℤ) x)

theorem pygcd_eq_gcdAll (l : List ℤ) (h : 2 ≤ l.length) :
    pygcd l = ((gcdAll l : ℕ) : ℤ) := by
  cases l with
  | nil => simp at h
  | cons a t =>
    cases t with
    | nil => simp at h
    | cons b t2 =>
      rw [pygcd, gcdAll]
      simp only [List.tail_cons, List.headD_cons, List.foldl_cons]
      have h1 : Int.gcd ((0 : ℕ) : ℤ) a = a.natAbs := by
        rw [Nat.cast_zero, Int.gcd_zero_left]
      have h2 : Int.gcd ((a.natAbs : ℕ) : ℤ) b = Int.gcd a b := by
        rw [Int.gcd, Int.gcd, Int.natAbs_ofNat]
      rw [show pgcd a b = ((Int.gcd a b : ℕ) : ℤ) from rfl, foldl_gcd_cast, h1, h2]

theorem gcdAll_fdiv_aux :
    ∀ (l : List ℤ) (a : ℕ) (d : ℤ), d ≠ 0 → (∀ x ∈ l, d ∣ x) →
      ((l.map (fun c => Int.fdiv c d)).foldl (fun g c => Int.gcd (g : ℤ) c) a) * d.natAbs
        = l.foldl (fun g c => Int.gcd (g : ℤ) c) (a * d.natAbs) := by
  intro l
  induction l with
  | nil => intro a d _ _; rfl
  | cons c rest ih =>
    intro a d hd hdvd
    rw [List.map_cons, List.foldl_cons, List.foldl_cons]
    have key : Int.gcd (a : ℤ) (Int.fdiv c d) * d.natAbs = Int.gcd ((a * d.natAbs : ℕ) : ℤ) c := by
      obtain ⟨k, hk⟩ := hdvd c (by simp)
      subst hk
      rw [Int.mul_fdiv_cancel_left k hd]
      rw [Int.gcd, Int.gcd, Int.natAbs_ofNat, Int.natAbs_ofNat, Int.natAbs_mul,
        Nat.mul_comm d.natAbs k.natAbs, Nat.gcd_mul_right]
    rw [ih (Int.gcd (a : ℤ) (Int.fdiv c d)) d hd (fun x hx => hdvd x (by simp [hx])), key]

/-- C5: the greatest common divisor of the entries of every returned coefficient
vector equals 1. -/
theorem solve_matrix_gcd_one (M : List (List ℚ)) (cs : List ℤ)
    (hsolve : solve_matrix M = some cs) : gcdAll cs = 1 := by
  rw [solve_matrix] at hsolve
  cases hfc : freeCols (ncols M) (rref M).2 with
  | nil =>
    rw [hfc] at hsolve
    exact absurd hsolve (by simp)
  | cons j0 rest =>
    rw [hfc] at hsolve
    have hcs : cs = normalizeCoeffs (nsVec (rref M).1 (rref M).2 (ncols M) j0) :=
      (Option.some.inj hsolve).symm
    have hj0n : j0 < ncols M := by
      have h2 : j0 ∈ freeCols (ncols M) (rref M).2 := by
        rw [hfc]
        exact List.mem_cons_self _ _
      rw [freeCols, List.mem_filter, List.mem_range] at h2
      exact h2.1
    have hvlen : (nsVec (rref M).1 (rref M).2 (ncols M) j0).length = ncols M :=
      length_nsVec _ _ _ _
    have hj0v : j0 < (nsVec (rref M).1 (rref M).2 (ncols M) j0).length := by omega
    have hv1 : (nsVec (rref M).1 (rref M).2 (ncols M) j0).getD j0 0 = 1 :=
      nsVec_getD_self _ _ hj0n
    rcases Nat.lt_or_ge (ncols M) 2 with hn2 | hn2
    · have hveq : nsVec (rref M).1 (rref M).2 (ncols M) j0 = [1] := by
        cases hvv : nsVec (rref M).1 (rref M).2 (ncols M) j0 with
        | nil =>
          rw [hvv] at hvlen
          simp only [List.length_nil] at hvlen
          omega
        | cons x xs =>
          cases xs with
          | nil =>
            rw [hvv] at hvlen
            simp only [List.length_cons, List.length_nil] at hvlen
            have hj00 : j0 = 0 := by omega
            rw [hvv, hj00, List.getD_cons_zero] at hv1
            rw [hv1]
          | cons y ys =>
            rw [hvv] at hvlen
            simp only [List.length_cons] at hvlen
            omega
      rw [hcs, hveq]
      decide
    · have hc1len2 : 2 ≤ (signNorm (intScaled (nsVec (rref M).1 (rref M).2 (ncols M) j0))).length := by
        rw [length_signNorm, length_intScaled]
        omega
      have hgg := pygcd_eq_gcdAll _ hc1len2
      have hgne := pygcd_signNorm_ne _ hj0v hv1
      have hGne : gcdAll (signNorm (intScaled (nsVec (rref M).1 (rref M).2 (ncols M) j0))) ≠ 0 := by
        intro h0
        rw [hgg, h0] at hgne
        simp at hgne
      have haux := gcdAll_fdiv_aux (signNorm (intScaled (nsVec (rref M).1 (rref M).2 (ncols M) j0)))
        0 (pygcd (signNorm (intScaled (nsVec (rref M).1 (rref M).2 (ncols M) j0)))) hgne
        (pygcd_dvd _)
      rw [Nat.zero_mul] at haux
      have habs : (pygcd (signNorm (intScaled
          (nsVec (rref M).1 (rref M).2 (ncols M) j0)))).natAbs
          = gcdAll (signNorm (intScaled (nsVec (rref M).1 (rref M).2 (ncols M) j0))) := by
        rw [hgg, Int.natAbs_ofNat]
      rw [habs] at haux
      have hfin : gcdAll cs * gcdAll (signNorm (intScaled
          (nsVec (rref M).1 (rref M).2 (ncols M) j0)))
          = gcdAll (signNorm (intScaled (nsVec (rref M).1 (rref M).2 (ncols M) j0))) := by
        rw [hcs, normalizeCoeffs]
        exact haux
      have := Nat.eq_of_mul_eq_mul_right (Nat.pos_of_ne_zero hGne)
        (by rw [hfin, Nat.one_mul] : gcdAll cs * _ = 1 * _)
      exact this

/-- Witness for C5 at a concrete 1×2 matrix. -/
theorem solve_matrix_gcd_one_witness : gcdAll ([1, 1] : List ℤ) = 1 :=
  solve_matrix_gcd_one [[-1, 1]] [1, 1] (by decide)

